import Mathlib

/-!
# Tokenizer: a shallow embedding of `tokenizer.hpp`

The engine `base_tokenizer<char>` keeps an ordered registry of regular
expressions, joins them into one composite ECMAScript pattern
`(p1)|(p2)|...|(.)` and repeatedly runs `std::regex_search` from a cursor.

The embedding has three layers.

* `Regex`, `step`/`parseRegex`, `matchRe`/`regex_search`: a model of
  `std::basic_regex` and `std::regex_search` on a fragment of the ECMAScript
  grammar, following the scanner, the compiler and the backtracking executor
  of the GNU C++ library. Code units are natural numbers, texts are lists of
  code units, iterators are offsets into the text. The fragment has literal
  units, `.`, bracket expressions made of units, ranges and class escapes, the
  escapes `\d \D \w \W \s \S \t \n \v \f \r \0`, the escape of any other unit
  standing for that unit, capture groups, `(?:...)`, the lookaheads `(?=...)`
  and `(?!...)`, alternation, and the quantifiers `*`, `+`, `?`, greedy or lazy.
  A pattern that uses anything else (the anchors `^` and `$`, `\b`, `\B`,
  back-references, counted repetition, `\x`, `\u`, `\c`, the POSIX forms `[:`,
  `[.`, `[=`, a quantifier right after a quantifier, a range that ends above
  127) is outside the model: `parseRegex` gives `none` for it, as it does for
  a string the library refuses.
* `State` and the member functions `make_pattern`, `add_token_type`,
  `add_builtin_token_type`, `assign`, `next`, `peek`, `expect`, ... written as
  functions from a state to an `Outcome`: the value returned or the exception
  thrown, the state left behind, and the calls made to the error handler.
* theorems about those functions.

Modelling decisions.

* The narrow instantiation `tokenizer = base_tokenizer<char>` is modelled; `.`
  matches every code unit except `\n` (10) and `\r` (13).
* A thrown exception is a result (`Except.error`) next to the state the call
  leaves behind, so what a call changed before it threw stays visible.
* The error handler is a function of its two arguments: what it returns or
  throws is modelled, and every call to it is recorded in `Outcome.calls`.
  The installed handler is the state field `error_handle`; the member
  `set_handle` is not embedded, its body assigns to `this->handle`, a member
  the class does not declare.
* The line counter (`long long`) is an unbounded integer.
* `State.init` is the value-initialised engine (`tokenizer t{}`): the members
  without initialiser, `tok`, `cur` and `prev`, are zero. Where a statement
  reads them before a call has set them, it is made for all their values.
* Character classes are those of the "C" locale. Resources are unbounded: the
  limits of the library on the size of a compiled pattern and on the depth of
  its recursion are not modelled.
* Statements that depend on what a registered pattern matches are made for
  `supported` patterns (`InFragment`): no quantifier is applied to a term that
  can match the empty string, and no capture group stands inside a lookahead.
  On these the executor of the library and `matchRe` take the same steps: no
  iteration of a loop is empty (`matchRe_consumes`, `guard_inert`).
  Outside of them they differ: a loop whose body matches the empty string is
  cut by `starLoop` as ECMA-262 `RepeatMatcher` does (an iteration that
  consumes nothing is rejected), while the library lets such an iteration
  pass once; and the library keeps the captures made inside a lookahead when
  the alternative around it fails later, which `matchRe` forgets.
* The captures made in one iteration of a loop stay in the next one, as in
  the library. A loop makes at most `length - pos` iterations (`starLoop_fuel`
  shows that a larger bound changes nothing).
-/

set_option autoImplicit false

namespace Tokenizer

/-! ## Code units and character classes -/

/-- The code units of a string literal (the `LITERAL(char, ...)` selection). -/
def lit (s : String) : List Nat := s.toList.map Char.toNat

/-- Class escape `\d`. -/
def isDigit (c : Nat) : Bool := decide (48 ≤ c) && decide (c ≤ 57)

/-- Class escape `\w`: letters, digits and the underscore. -/
def isWord (c : Nat) : Bool :=
  isDigit c || (decide (65 ≤ c) && decide (c ≤ 90)) || (decide (97 ≤ c) && decide (c ≤ 122))
    || c == 95

/-- Class escape `\s`: space, tab, line feed, vertical tab, form feed, carriage return. -/
def isSpace (c : Nat) : Bool := c == 32 || (decide (9 ≤ c) && decide (c ≤ 13))

/-- Line terminators of the narrow instantiation: `.` matches every unit but these. -/
def isLineTerminator (c : Nat) : Bool := c == 10 || c == 13

/-- One member of a bracket expression. -/
inductive ClassItem where
  | single (c : Nat)
  | range (lo hi : Nat)
  | digit (neg : Bool)
  | word (neg : Bool)
  | space (neg : Bool)
  deriving DecidableEq, Repr

/-- Does the code unit belong to the item? -/
def ClassItem.test : ClassItem → Nat → Bool
  | .single a, c => c == a
  | .range lo hi, c => decide (lo ≤ c) && decide (c ≤ hi)
  | .digit neg, c => isDigit c != neg
  | .word neg, c => isWord c != neg
  | .space neg, c => isSpace c != neg

/-- Bracket expression test: some item accepts the unit, negated for `[^...]`. -/
def classTest (neg : Bool) (items : List ClassItem) (c : Nat) : Bool :=
  items.any (fun it => it.test c) != neg

/-! ## Regular expressions -/

/-- Abstract syntax of the modelled fragment of the ECMAScript grammar. Capture groups carry no
index: a group is numbered by the position of its opening parenthesis, which
the matcher recomputes from `ngroups`. -/
inductive Regex where
  | empty
  | char (c : Nat)
  | any
  | cls (neg : Bool) (items : List ClassItem)
  | seq (a b : Regex)
  | alt (a b : Regex)
  | star (greedy : Bool) (r : Regex)
  | plus (greedy : Bool) (r : Regex)
  | opt (greedy : Bool) (r : Regex)
  | group (r : Regex)
  | look (neg : Bool) (r : Regex)
  deriving DecidableEq, Repr

/-- Number of capture groups (`mark_count`). -/
def ngroups : Regex → Nat
  | .seq a b => ngroups a + ngroups b
  | .alt a b => ngroups a + ngroups b
  | .star _ r => ngroups r
  | .plus _ r => ngroups r
  | .opt _ r => ngroups r
  | .look _ r => ngroups r
  | .group r => ngroups r + 1
  | _ => 0

/-- Can the pattern match the empty string, read off its syntax (a lookahead
consumes nothing). -/
def nullable : Regex → Bool
  | .empty => true
  | .seq a b => nullable a && nullable b
  | .alt a b => nullable a || nullable b
  | .star _ _ => true
  | .opt _ _ => true
  | .plus _ r => nullable r
  | .group r => nullable r
  | .look _ _ => true
  | _ => false

/-- Concatenation of a list of terms. -/
def mkSeq : List Regex → Regex
  | [] => .empty
  | [a] => a
  | a :: b :: rest => .seq a (mkSeq (b :: rest))

/-- Disjunction of a list of alternatives, leftmost first. -/
def mkAlt : List Regex → Regex
  | [] => .empty
  | [a] => a
  | a :: b :: rest => .alt a (mkAlt (b :: rest))

/-! ## Parsing a pattern string -/

/-- Kind of an open parenthesis. -/
inductive GKind where
  | cap
  | noncap
  | look (neg : Bool)
  deriving DecidableEq, Repr

/-- A disjunction under construction: finished alternatives and the terms of the
current alternative, both latest first. -/
structure Frame where
  alts : List Regex
  seq : List Regex
  deriving DecidableEq, Repr

/-- The disjunction a frame stands for. -/
def Frame.toRegex (f : Frame) : Regex := mkAlt ((mkSeq f.seq.reverse :: f.alts).reverse)

/-- What may follow the previous term: nothing special, a quantifier, or the
lazy marker of a quantifier. -/
inductive QSt where
  | none
  | atom
  | quantified
  deriving DecidableEq, Repr

/-- A bracket expression under construction (`_M_insert_bracket_matcher`,
`_M_expression_term`): the items added so far, the cached last unit
(`pending`), whether the last thing read was a class escape (`cls`), and
whether a dash was read after it and waits for what follows. -/
structure ClsAcc where
  neg : Bool
  items : List ClassItem
  pending : Option Nat
  cls : Bool
  dash : Bool
  deriving DecidableEq, Repr

/-- Scanner mode. -/
inductive Mode where
  | normal (q : QSt)
  | esc
  | opened
  | openedQ
  | clsStart
  | cls (acc : ClsAcc)
  | clsEsc (acc : ClsAcc)
  | clsOpen (acc : ClsAcc)
  deriving DecidableEq, Repr

/-- Parser state: the innermost open disjunction and the enclosing ones, each
with the kind of the parenthesis that was opened inside it. -/
structure PState where
  mode : Mode
  cur : Frame
  stack : List (GKind × Frame)
  deriving DecidableEq, Repr

/-- Add a finished term to the current alternative. -/
def pushAtom (cur : Frame) (stack : List (GKind × Frame)) (a : Regex) (q : QSt) : Option PState :=
  some ⟨.normal q, ⟨cur.alts, a :: cur.seq⟩, stack⟩

/-- Apply a greedy quantifier to the previous term. -/
def applyQuant (cur : Frame) (stack : List (GKind × Frame)) (mk : Regex → Regex) :
    Option PState :=
  match cur.seq with
  | a :: rest => some ⟨.normal .quantified, ⟨cur.alts, mk a :: rest⟩, stack⟩
  | [] => none

/-- Turn the quantifier just read into its lazy form. -/
def makeLazy (cur : Frame) (stack : List (GKind × Frame)) : Option PState :=
  match cur.seq with
  | .star _ a :: rest => some ⟨.normal .none, ⟨cur.alts, .star false a :: rest⟩, stack⟩
  | .plus _ a :: rest => some ⟨.normal .none, ⟨cur.alts, .plus false a :: rest⟩, stack⟩
  | .opt _ a :: rest => some ⟨.normal .none, ⟨cur.alts, .opt false a :: rest⟩, stack⟩
  | _ => none

/-- Close the innermost parenthesis. -/
def closeGroup (cur : Frame) (stack : List (GKind × Frame)) : Option PState :=
  match stack with
  | [] => none
  | (.cap, parent) :: rest =>
      some ⟨.normal .atom, ⟨parent.alts, .group cur.toRegex :: parent.seq⟩, rest⟩
  | (.noncap, parent) :: rest =>
      some ⟨.normal .atom, ⟨parent.alts, cur.toRegex :: parent.seq⟩, rest⟩
  | (.look neg, parent) :: rest =>
      some ⟨.normal .none, ⟨parent.alts, .look neg cur.toRegex :: parent.seq⟩, rest⟩

/-- One code unit read outside brackets and escapes. -/
def stepNormal (q : QSt) (cur : Frame) (stack : List (GKind × Frame)) (c : Nat) :
    Option PState :=
  if c = 92 then some ⟨.esc, cur, stack⟩
  else if c = 40 then some ⟨.opened, ⟨[], []⟩, (.cap, cur) :: stack⟩
  else if c = 41 then closeGroup cur stack
  else if c = 124 then some ⟨.normal .none, ⟨mkSeq cur.seq.reverse :: cur.alts, []⟩, stack⟩
  else if c = 42 then
    (if q = .atom then applyQuant cur stack (Regex.star true) else none)
  else if c = 43 then
    (if q = .atom then applyQuant cur stack (Regex.plus true) else none)
  else if c = 63 then
    (if q = .atom then applyQuant cur stack (Regex.opt true)
     else if q = .quantified then makeLazy cur stack else none)
  else if c = 91 then some ⟨.clsStart, cur, stack⟩
  else if c = 46 then pushAtom cur stack .any .atom
  else if c = 123 ∨ c = 94 ∨ c = 36 then none
  else pushAtom cur stack (.char c) .atom

/-- The class escapes `\d \D \w \W \s \S`. -/
def classEscape (c : Nat) : Option ClassItem :=
  if c = 100 then some (.digit false)
  else if c = 68 then some (.digit true)
  else if c = 119 then some (.word false)
  else if c = 87 then some (.word true)
  else if c = 115 then some (.space false)
  else if c = 83 then some (.space true)
  else none

/-- The escapes that denote one code unit (`_M_eat_escape_ecma`): the table
`\t \n \v \f \r \0`, and any other unit stands for itself. The escapes `\b`,
`\B`, `\c`, `\x`, `\u` and the back-references `\1` ... `\9` are outside the
modelled fragment. -/
def charEscape (c : Nat) : Option Nat :=
  if c = 116 then some 9
  else if c = 110 then some 10
  else if c = 118 then some 11
  else if c = 102 then some 12
  else if c = 114 then some 13
  else if c = 48 then some 0
  else if c = 98 ∨ c = 66 ∨ c = 99 ∨ c = 120 ∨ c = 117 then none
  else if isDigit c then none
  else some c

/-- The unit after a backslash, outside brackets. -/
def stepEsc (cur : Frame) (stack : List (GKind × Frame)) (c : Nat) : Option PState :=
  match classEscape c with
  | some it => pushAtom cur stack (.cls false [it]) .atom
  | none =>
    match charEscape c with
    | some u => pushAtom cur stack (.char u) .atom
    | none => none

/-- The items of a bracket expression at its closing bracket: the cached unit
is added, and a dash that waits is the literal `-`. -/
def ClsAcc.flush (acc : ClsAcc) : List ClassItem :=
  match acc.pending with
  | none => if acc.dash then .single 45 :: acc.items else acc.items
  | some a => if acc.dash then .single 45 :: .single a :: acc.items else .single a :: acc.items

/-- One unit (plain or escaped) inside a bracket expression. After `x-` it
closes the range, which must not be empty; a range with an end above 127 is
outside the modelled fragment (the order of such units depends on the
signedness of `char`). After a class escape and a dash it is an error. -/
def clsAddChar (acc : ClsAcc) (c : Nat) : Option ClsAcc :=
  match acc.pending with
  | none =>
    if acc.dash then none else some ⟨acc.neg, acc.items, some c, false, false⟩
  | some a =>
    if acc.dash then
      (if a ≤ c ∧ c < 128 then some ⟨acc.neg, .range a c :: acc.items, none, false, false⟩
       else none)
    else some ⟨acc.neg, .single a :: acc.items, some c, false, false⟩

/-- One code unit read inside a bracket expression. An opening bracket waits
for the unit after it (`[.`, `[:` and `[=` open the POSIX forms). -/
def stepCls (acc : ClsAcc) (cur : Frame) (stack : List (GKind × Frame)) (c : Nat) :
    Option PState :=
  if c = 93 then pushAtom cur stack (.cls acc.neg acc.flush.reverse) .atom
  else if c = 92 then some ⟨.clsEsc acc, cur, stack⟩
  else if c = 91 then some ⟨.clsOpen acc, cur, stack⟩
  else if c = 45 ∧ (acc.pending.isSome ∨ acc.cls = true) ∧ acc.dash = false then
    some ⟨.cls ⟨acc.neg, acc.items, acc.pending, acc.cls, true⟩, cur, stack⟩
  else (clsAddChar acc c).map (fun acc2 => ⟨.cls acc2, cur, stack⟩)

/-- The unit after a backslash, inside a bracket expression. A class escape
cannot end a range. -/
def stepClsEsc (acc : ClsAcc) (cur : Frame) (stack : List (GKind × Frame)) (c : Nat) :
    Option PState :=
  match classEscape c with
  | some it =>
    if acc.dash then none
    else some ⟨.cls ⟨acc.neg, it :: acc.flush, none, true, false⟩, cur, stack⟩
  | none =>
    match charEscape c with
    | some u => (clsAddChar acc u).map (fun acc2 => ⟨.cls acc2, cur, stack⟩)
    | none => none

/-- The unit after an opening bracket inside a bracket expression: the POSIX
forms `[.`, `[:`, `[=` are outside the modelled fragment; before any other unit
the bracket is an ordinary unit. -/
def stepClsOpen (acc : ClsAcc) (cur : Frame) (stack : List (GKind × Frame)) (c : Nat) :
    Option PState :=
  if c = 46 ∨ c = 58 ∨ c = 61 then none
  else
    match clsAddChar acc 91 with
    | some acc2 => stepCls acc2 cur stack c
    | none => none

/-- The unit after `(?`: the parenthesis just pushed changes its kind. -/
def stepOpenedQ (cur : Frame) (stack : List (GKind × Frame)) (c : Nat) : Option PState :=
  match stack with
  | [] => none
  | (_, parent) :: rest =>
    if c = 58 then some ⟨.normal .none, cur, (.noncap, parent) :: rest⟩
    else if c = 61 then some ⟨.normal .none, cur, (.look false, parent) :: rest⟩
    else if c = 33 then some ⟨.normal .none, cur, (.look true, parent) :: rest⟩
    else none

/-- The scanner and parser, one code unit at a time. -/
def step (s : PState) (c : Nat) : Option PState :=
  match s.mode with
  | .normal q => stepNormal q s.cur s.stack c
  | .esc => stepEsc s.cur s.stack c
  | .opened => if c = 63 then some ⟨.openedQ, s.cur, s.stack⟩ else stepNormal .none s.cur s.stack c
  | .openedQ => stepOpenedQ s.cur s.stack c
  | .clsStart =>
      if c = 94 then some ⟨.cls ⟨true, [], none, false, false⟩, s.cur, s.stack⟩
      else stepCls ⟨false, [], none, false, false⟩ s.cur s.stack c
  | .cls acc => stepCls acc s.cur s.stack c
  | .clsEsc acc => stepClsEsc acc s.cur s.stack c
  | .clsOpen acc => stepClsOpen acc s.cur s.stack c

/-- Read a whole string from a state. -/
def steps : PState → List Nat → Option PState
  | s, [] => some s
  | s, c :: rest =>
    match step s c with
    | some s2 => steps s2 rest
    | none => none

/-- State before the first code unit. -/
def PState.init : PState := ⟨.normal .none, ⟨[], []⟩, []⟩

/-- At the end of the string every parenthesis, bracket and escape must be closed. -/
def finish (s : PState) : Option Regex :=
  match s.mode, s.stack with
  | .normal _, [] => some s.cur.toRegex
  | _, _ => none

/-- Compile a pattern string (`basic_regex::assign` with the ECMAScript grammar);
`none` stands for `std::regex_error`, and for a pattern outside the modelled
fragment. -/
def parseRegex (p : List Nat) : Option Regex :=
  match steps PState.init p with
  | some s => finish s
  | none => none

/-! ## Matching -/

/-- Sub-match table: entry `i` is the span of capture group `i` when it matched
(`match[i].matched`, `match[i].first`, `match[i].second`). -/
abbrev Caps := List (Option (Nat × Nat))

/-- Result of a match attempt: end offset and sub-matches. -/
abbrev MRes := Option (Nat × Caps)

/-- Continuation of a match: what has to match after the current term. -/
abbrev Cont := Nat → Caps → MRes

/-- First successful result of two attempts. -/
def firstOf (a : MRes) (b : Unit → MRes) : MRes :=
  match a with
  | some x => some x
  | none => b ()

/-- The loop of a quantifier `*` (a repeat node of the library's automaton):
try one more iteration and then the rest, or the rest at once, in the order the
greediness gives. An iteration that consumes nothing is rejected (ECMA-262
`RepeatMatcher`); for a body that cannot match the empty string, the only case
the statements rely on, this never happens, and at most `fuel = length - pos`
iterations can take place. -/
def starLoop (mr : Nat → Caps → Cont → MRes) (greedy : Bool) :
    Nat → Nat → Caps → Cont → MRes
  | 0, pos, caps, k => k pos caps
  | fuel + 1, pos, caps, k =>
    if greedy then
      firstOf (mr pos caps
          (fun p c => if pos < p then starLoop mr greedy fuel p c k else none))
        (fun _ => k pos caps)
    else
      firstOf (k pos caps)
        (fun _ => mr pos caps
          (fun p c => if pos < p then starLoop mr greedy fuel p c k else none))

/-- Backtracking matcher in continuation-passing style: `matchRe inp r base pos
caps k` matches `r` at offset `pos` of `inp` and then `k`; `base` is the number
of the first capture group inside `r`. -/
def matchRe (inp : List Nat) : Regex → Nat → Nat → Caps → Cont → MRes
  | .empty, _, pos, caps, k => k pos caps
  | .char c, _, pos, caps, k => if inp[pos]? = some c then k (pos + 1) caps else none
  | .any, _, pos, caps, k =>
      match inp[pos]? with
      | some u => if isLineTerminator u then none else k (pos + 1) caps
      | none => none
  | .cls neg items, _, pos, caps, k =>
      match inp[pos]? with
      | some u => if classTest neg items u then k (pos + 1) caps else none
      | none => none
  | .seq a b, base, pos, caps, k =>
      matchRe inp a base pos caps (fun p c => matchRe inp b (base + ngroups a) p c k)
  | .alt a b, base, pos, caps, k =>
      firstOf (matchRe inp a base pos caps k)
        (fun _ => matchRe inp b (base + ngroups a) pos caps k)
  | .star greedy r, base, pos, caps, k =>
      starLoop (fun p c k2 => matchRe inp r base p c k2) greedy
        (inp.length - pos) pos caps k
  | .plus greedy r, base, pos, caps, k =>
      matchRe inp r base pos caps
        (fun p c => starLoop (fun p2 c2 k2 => matchRe inp r base p2 c2 k2) greedy
          (inp.length - p) p c k)
  | .opt greedy r, base, pos, caps, k =>
      if greedy then
        firstOf (matchRe inp r base pos caps
            (fun p c => if pos < p then k p c else none))
          (fun _ => k pos caps)
      else
        firstOf (k pos caps)
          (fun _ => matchRe inp r base pos caps
            (fun p c => if pos < p then k p c else none))
  | .group r, base, pos, caps, k =>
      matchRe inp r (base + 1) pos caps (fun p c => k p (c.set base (some (pos, p))))
  | .look neg r, base, pos, caps, k =>
      match matchRe inp r base pos caps (fun p c => some (p, c)) with
      | some (_, c) => if neg then none else k pos c
      | none => if neg then k pos caps else none

/-- The continuation at the end of the pattern: accept and record the whole match. -/
def accept (start : Nat) : Cont := fun p cs => some (p, cs.set 0 (some (start, p)))

/-- Match the whole pattern with its first unit at offset `pos`; entry 0 of the
result is the span of the whole match. -/
def matchAt (inp : List Nat) (re : Regex) (pos : Nat) : MRes :=
  matchRe inp re 1 pos (List.replicate (ngroups re + 1) none) (accept pos)

/-- Try the start offsets `pos, pos + 1, ...` in turn. -/
def searchFrom (inp : List Nat) (re : Regex) : Nat → Nat → MRes
  | 0, _ => none
  | n + 1, pos =>
    match matchAt inp re pos with
    | some r => some r
    | none => searchFrom inp re n (pos + 1)

/-- Model of `std::regex_search(cur, str.cend(), match, pattern)`: the leftmost
start offset in `cur, ..., length` at which the pattern matches. -/
def regex_search (inp : List Nat) (re : Regex) (cur : Nat) : MRes :=
  searchFrom inp re (inp.length + 1 - cur) cur

/-! ## The engine -/

/-- Exceptions the engine can raise: `std::logic_error` with its message,
`std::out_of_range` (from `vector::at` and `map::at`) and `std::regex_error`. -/
inductive Exn where
  | logic_error (what : String)
  | out_of_range
  | regex_error
  deriving DecidableEq, Repr

deriving instance DecidableEq for Except

/-- Discriminator passed to the error handler. -/
inductive error_handle_msg where
  | REGEX_NOT_MATCH
  | TOKEN_UNEXPECTED
  deriving DecidableEq, Repr

/-- The enumeration `builtin_token_type`. -/
inductive builtin_token_type where
  | IDENTIFIER
  | NUMBER_LITERAL
  | STRING_LITERAL
  | CHAR_LITERAL
  | SPACE
  | NEWLINE
  | ERROR
  deriving DecidableEq, Repr

/-- The enumerator values. -/
def builtin_token_type.code : builtin_token_type → Int
  | .IDENTIFIER => -7
  | .NUMBER_LITERAL => -6
  | .STRING_LITERAL => -5
  | .CHAR_LITERAL => -4
  | .SPACE => -3
  | .NEWLINE => -2
  | .ERROR => -1

/-- Type code of the enumerator `IDENTIFIER`. -/
def IDENTIFIER : Int := builtin_token_type.IDENTIFIER.code
/-- Type code of the enumerator `NUMBER_LITERAL`. -/
def NUMBER_LITERAL : Int := builtin_token_type.NUMBER_LITERAL.code
/-- Type code of the enumerator `STRING_LITERAL`. -/
def STRING_LITERAL : Int := builtin_token_type.STRING_LITERAL.code
/-- Type code of the enumerator `CHAR_LITERAL`. -/
def CHAR_LITERAL : Int := builtin_token_type.CHAR_LITERAL.code
/-- Type code of the enumerator `SPACE`. -/
def SPACE : Int := builtin_token_type.SPACE.code
/-- Type code of the enumerator `NEWLINE`. -/
def NEWLINE : Int := builtin_token_type.NEWLINE.code
/-- Type code of the enumerator `ERROR`, the error sentinel. -/
def ERROR : Int := builtin_token_type.ERROR.code

/-- The record `token`: a half-open span of offsets, a type code and a line. -/
structure token where
  first : Nat
  last : Nat
  type : Int
  line : Int
  deriving DecidableEq, Repr

/-- The data members of `base_tokenizer<char>`. Iterators into `str` are offsets;
`pattern` is `none` for the default-constructed `basic_regex`, which matches
nothing; `match_` is `none` when the last search failed. The line counter is
an unbounded integer (the source's `long long` is assumed not to overflow). -/
structure State where
  error_handle : error_handle_msg → Nat → Except Exn Int
  type_map : List Int
  pattern_list : List (List Nat)
  token_type_string_list : List (Int × List Nat)
  pattern : Option Regex
  status : Int
  line : Int
  match_ : Option Caps
  cur : Nat
  prev : Nat
  str : List Nat
  tok : token

/-- What a member function call leaves behind: the value returned or the
exception thrown, the state of the engine, and the calls made to the error
handler, in order. -/
structure Outcome (α : Type) where
  res : Except Exn α
  st : State
  calls : List (error_handle_msg × Nat)

/-- The default member initialiser of `error_handle`: it throws. -/
def default_error_handle : error_handle_msg → Nat → Except Exn Int :=
  fun _ _ => .error (.logic_error "default error handle")

/-- A freshly constructed engine: the default member initialisers, and zero for
the members without one (`tok`, `cur`, `prev`), the values they have in a
value-initialised object. -/
def State.init : State where
  error_handle := default_error_handle
  type_map := [-1]
  pattern_list := []
  token_type_string_list := []
  pattern := none
  status := 0
  line := 1
  match_ := none
  cur := 0
  prev := 0
  str := []
  tok := ⟨0, 0, 0, 0⟩

/-- The string built by the loop of `make_pattern`: `(item)|` for each
registered pattern in order, then `(.)`. -/
def composite (pattern_list : List (List Nat)) : List Nat :=
  pattern_list.foldl (fun s item => s ++ (lit "(" ++ item ++ lit ")|")) [] ++ lit "(.)"

/-- Member `make_pattern`: compile the composite string. -/
def make_pattern (s : State) : Outcome Unit :=
  match parseRegex (composite s.pattern_list) with
  | some re => ⟨.ok (), { s with pattern := some re }, []⟩
  | none => ⟨.error .regex_error, s, []⟩

/-- Member `add_token_type(pattern, type)`. -/
def add_token_type (s : State) (pattern : List Nat) (type : Int) : Outcome Unit :=
  if s.status ≠ 0 then ⟨.error (.logic_error "add token type after initialize"), s, []⟩
  else ⟨.ok (), { s with pattern_list := s.pattern_list ++ [pattern],
                         type_map := s.type_map ++ [type] }, []⟩

/-- The call `map::emplace`: a key that is present keeps its value. -/
def emplace (m : List (Int × List Nat)) (key : Int) (value : List Nat) : List (Int × List Nat) :=
  if m.any (fun e => e.1 == key) then m else m ++ [(key, value)]

/-- Member `add_token_type(pattern, type, token_type_string)`. -/
def add_token_type_named (s : State) (pattern : List Nat) (type : Int)
    (token_type_string : List Nat) : Outcome Unit :=
  let o := add_token_type s pattern type
  match o.res with
  | .error e => ⟨.error e, o.st, o.calls⟩
  | .ok _ =>
    let names := emplace o.st.token_type_string_list type token_type_string
    ⟨.ok (), { o.st with token_type_string_list := names }, o.calls⟩

/-- Turn the outcome of the inner `add_token_type` into the result of
`add_builtin_token_type` after the `break`. -/
def builtin_done (o : Outcome Unit) : Outcome Bool :=
  match o.res with
  | .error e => ⟨.error e, o.st, o.calls⟩
  | .ok _ => ⟨.ok true, o.st, o.calls⟩

/-- Member `add_builtin_token_type`. -/
def add_builtin_token_type (s : State) (type : builtin_token_type) : Outcome Bool :=
  match type with
  | .IDENTIFIER =>
      builtin_done (add_token_type_named s (lit "[a-zA-Z_]\\w*") IDENTIFIER (lit "IDENTIFIER"))
  | .NUMBER_LITERAL =>
      builtin_done (add_token_type_named s (lit "(?:-?\\d+)(?:\\.\\d+)?") NUMBER_LITERAL
        (lit "NUMBER"))
  | .STRING_LITERAL =>
      builtin_done (add_token_type_named s (lit "\"(?:(?!(?:\\\\|\")).|\\\\.)*\"")
        STRING_LITERAL (lit "STRING"))
  | .CHAR_LITERAL =>
      builtin_done (add_token_type_named s (lit "'(?:(?!(?:\\\\|')).|\\\\.)*'") CHAR_LITERAL
        (lit "CHAR"))
  | .SPACE => builtin_done (add_token_type_named s (lit "[ \\t]+") SPACE (lit "SPACE"))
  | .NEWLINE =>
      builtin_done (add_token_type_named s (lit "(?:\\r\\n)+|\\n+|\\r+") NEWLINE (lit "NEWLINE"))
  | .ERROR => ⟨.ok false, s, []⟩

/-- Member `assign`. -/
def assign (s : State) (str : List Nat) : Outcome Unit :=
  let s1 := { s with str := str }
  let o := make_pattern s1
  match o.res with
  | .error e => ⟨.error e, o.st, o.calls⟩
  | .ok _ =>
    ⟨.ok (), { o.st with prev := 0, cur := 0, type_map := o.st.type_map ++ [ERROR],
                         status := 1 }, o.calls⟩

/-- Member `current_token`. -/
def current_token (s : State) : token := s.tok

/-- The call `map::at`. -/
def map_at (m : List (Int × List Nat)) (key : Int) : Except Exn (List Nat) :=
  match m.find? (fun e => e.1 == key) with
  | some e => .ok e.2
  | none => .error .out_of_range

/-- Member `current_token_type_string`. -/
def current_token_type_string (s : State) : Outcome (List Nat) :=
  ⟨map_at s.token_type_string_list s.tok.type, s, []⟩

/-- The search `std::regex_search(cur, str.cend(), match, pattern)` of `next`
and `peek`. -/
def search (s : State) : MRes :=
  match s.pattern with
  | some re => regex_search s.str re s.cur
  | none => none

/-- The loop of the lambda from a given index: the first sub-match that matched. -/
def firstMatchedFrom : Caps → Nat → Nat
  | [], _ => 0
  | some _ :: _, i => i
  | none :: rest, i => firstMatchedFrom rest (i + 1)

/-- The lambda of `next` and `peek`: the least `index` with `1 ≤ index <
match.size()` and `match[index].matched`, or 0. -/
def firstMatched (m : Caps) : Nat := firstMatchedFrom m.tail 1

/-- The iterator `match[i].first`; an unmatched sub-match points at the end. -/
def sub_first (str : List Nat) (m : Caps) (i : Nat) : Nat :=
  match m[i]? with
  | some (some (a, _)) => a
  | _ => str.length

/-- The iterator `match[i].second`; an unmatched sub-match points at the end. -/
def sub_second (str : List Nat) (m : Caps) (i : Nat) : Nat :=
  match m[i]? with
  | some (some (_, b)) => b
  | _ => str.length

/-- The `else` branch of `next` and `peek`: the search failed in the state `s`
(whose `tok.type` is already `ERROR`). -/
def not_matched (s : State) : Outcome Int :=
  if s.cur = s.str.length then ⟨.ok ERROR, s, []⟩
  else
    match s.error_handle .REGEX_NOT_MATCH s.cur with
    | .error e => ⟨.error e, s, [(.REGEX_NOT_MATCH, s.cur)]⟩
    | .ok v =>
      if v = 0 then ⟨.error (.logic_error "unhandled error"), s, [(.REGEX_NOT_MATCH, s.cur)]⟩
      else ⟨.ok s.tok.type, s, [(.REGEX_NOT_MATCH, s.cur)]⟩

/-- The statement `tok.type = ERROR` that opens `next` and `peek`. -/
def reset_type (s : State) : State := { s with tok := { s.tok with type := ERROR } }

/-- Member `next`. The search reads `cur`, `str` and `pattern` only, so it is
taken on `s` although it runs after `tok.type = ERROR`. -/
def next (s : State) : Outcome Int :=
  match search s with
  | some (_, m) =>
    if firstMatched m = 0 then
      ⟨.error (.logic_error "unavailable"), { reset_type s with match_ := some m }, []⟩
    else
      match s.type_map[firstMatched m]? with
      | none => ⟨.error .out_of_range, { reset_type s with match_ := some m }, []⟩
      | some t =>
        ⟨.ok t,
         { s with match_ := some m,
                  line := if t = NEWLINE then s.line + 1 else s.line,
                  tok := ⟨sub_first s.str m (firstMatched m), sub_second s.str m (firstMatched m),
                          t, if t = NEWLINE then s.line + 1 else s.line⟩,
                  prev := s.cur,
                  cur := sub_second s.str m (firstMatched m) }, []⟩
  | none => not_matched { reset_type s with match_ := none }

/-- Member `peek`. When `type_map.at` throws, `tok.first` and `tok.last` have
been assigned already. -/
def peek (s : State) : Outcome Int :=
  match search s with
  | some (_, m) =>
    if firstMatched m = 0 then
      ⟨.error (.logic_error "unavailable"), { reset_type s with match_ := some m }, []⟩
    else
      match s.type_map[firstMatched m]? with
      | none =>
        ⟨.error .out_of_range,
         { s with match_ := some m,
                  tok := ⟨sub_first s.str m (firstMatched m), sub_second s.str m (firstMatched m),
                          ERROR, s.tok.line⟩ }, []⟩
      | some t =>
        ⟨.ok t,
         { s with match_ := some m,
                  tok := ⟨sub_first s.str m (firstMatched m), sub_second s.str m (firstMatched m),
                          t, s.line⟩ }, []⟩
  | none => not_matched { reset_type s with match_ := none }

/-- Member `expect`. -/
def expect (s : State) (expected : Int) : Outcome Bool :=
  let o := peek s
  match o.res with
  | .error e => ⟨.error e, o.st, o.calls⟩
  | .ok type =>
    if type ≠ expected then
      match o.st.error_handle .TOKEN_UNEXPECTED o.st.cur with
      | .error e => ⟨.error e, o.st, o.calls ++ [(.TOKEN_UNEXPECTED, o.st.cur)]⟩
      | .ok _ => ⟨.ok false, o.st, o.calls ++ [(.TOKEN_UNEXPECTED, o.st.cur)]⟩
    else ⟨.ok true, o.st, o.calls⟩

/-- Member `tryget`. -/
def tryget (s : State) (expected : Int) : Outcome Bool :=
  let o := peek s
  match o.res with
  | .error e => ⟨.error e, o.st, o.calls⟩
  | .ok type =>
    if type = expected then
      let o2 := next o.st
      match o2.res with
      | .error e => ⟨.error e, o2.st, o.calls ++ o2.calls⟩
      | .ok _ => ⟨.ok true, o2.st, o.calls ++ o2.calls⟩
    else ⟨.ok false, o.st, o.calls⟩

/-- Member `succeed`. -/
def succeed (tok_t : Int) : Bool := tok_t != ERROR

/-! ## Auxiliary definitions for the statements -/

/-- The loop of `make_pattern` as a recursion: the string before `(.)`. -/
def chunks : List (List Nat) → List Nat
  | [] => []
  | p :: rest => lit "(" ++ p ++ lit ")|" ++ chunks rest

/-- A pattern on its own matches at offset `pos`: the end offset of the match
that `std::regex_search` with `match_continuous` finds for it there. -/
def matchEnd (inp : List Nat) (r : Regex) (pos : Nat) : Option Nat :=
  (matchAt inp r pos).map Prod.fst

/-- The captures `cs` handed to a continuation, against the captures `caps` the
term started from: same table size and same entries below `base`. -/
def CapsFrame (base : Nat) (caps cs : Caps) : Prop :=
  cs.length = caps.length ∧ ∀ j, j < base → cs[j]? = caps[j]?

/-- What the alternation of the composite pattern does at offset `pos`, told
with the registered patterns on their own: the position in the list (0-based,
`rs.length` for the fallback `(.)`) and the end offset of the first alternative
that matches there. -/
def firstAlt (inp : List Nat) : List Regex → Nat → Option (Nat × Nat)
  | [], pos =>
    match inp[pos]? with
    | some u => if isLineTerminator u then none else some (0, pos + 1)
    | none => none
  | r :: rest, pos =>
    match matchEnd inp r pos with
    | some e => some (0, e)
    | none => (firstAlt inp rest pos).map (fun x => (x.1 + 1, x.2))

/-- Number of the capture group wrapped around alternative `i` of the composite
pattern when the first alternative opens group `base`. -/
def groupIndex : List Regex → Nat → Nat → Nat
  | [], base, _ => base
  | _ :: _, base, 0 => base
  | r :: rest, base, i + 1 => groupIndex rest (base + ngroups r + 1) i

/-- A fresh engine on which the entries (pattern, type code) were registered in
order with `add_token_type(pattern, type)`. -/
def registered (entries : List (List Nat × Int)) : State :=
  entries.foldl (fun st e => (add_token_type st e.1 e.2).st) State.init

/-- The state right after `assign(text)` on such an engine. -/
def start (entries : List (List Nat × Int)) (text : List Nat) : State :=
  (assign (registered entries) text).st

/-- The states of a session over `text` with the given entries: the input, the
compiled composite pattern and the type map are the ones `assign` left; cursor,
bookmark, line counter, current token and handler are arbitrary. -/
def Session (entries : List (List Nat × Int)) (text : List Nat) (s : State) : Prop :=
  s.str = text ∧ s.pattern = parseRegex (composite (entries.map Prod.fst)) ∧
    s.type_map = (-1 :: entries.map Prod.snd) ++ [ERROR]

/-- Every registered pattern compiles on its own, so it is well formed and
written in the modelled fragment of the grammar; `rs` are the compiled
patterns. -/
def WellFormed (entries : List (List Nat × Int)) (rs : List Regex) : Prop :=
  List.Forall₂ (fun e r => parseRegex e.1 = some r) entries rs

/-- The text a token spans. -/
def span (text : List Nat) (t : token) : List Nat :=
  (text.drop t.first).take (t.last - t.first)

/-- The results of `n` successive calls of `next()` and the state after them
(a caller that catches an exception may go on calling). -/
def next_n : Nat → State → List (Except Exn Int) × State
  | 0, s => ([], s)
  | n + 1, s => ((next s).res :: (next_n n (next s).st).1, (next_n n (next s).st).2)

/-- Did the call return the type code `NEWLINE`? -/
def isNewline : Except Exn Int → Bool
  | .ok t => t == NEWLINE
  | .error _ => false

/-- One later call: `next()` for `true`, `peek()` for `false`. -/
def call (consume : Bool) (s : State) : Outcome Int := if consume then next s else peek s

/-- The engine of the end-to-end example: the builtins `IDENTIFIER`, `SPACE`,
`NUMBER_LITERAL` registered in that order. -/
def foo42_registry : State :=
  (add_builtin_token_type
    (add_builtin_token_type
      (add_builtin_token_type State.init .IDENTIFIER).st .SPACE).st .NUMBER_LITERAL).st

/-- The end-to-end example right after `assign("foo 42")`. -/
def foo42 : State := (assign foo42_registry (lit "foo 42")).st

/-- An engine with only the `NEWLINE` builtin, right after `assign("\n")`. -/
def newline_only : State :=
  (assign (add_builtin_token_type State.init .NEWLINE).st (lit "\n")).st

/-- An engine whose handler returns 1 whatever it is told. -/
def lenient (s : State) : State := { s with error_handle := fun _ _ => .ok 1 }

/-- Every capture in the table lies inside `[lo, hi]`. -/
def CapsIn (lo hi : Nat) (cs : Caps) : Prop :=
  ∀ (j a b : Nat), cs[j]? = some (some (a, b)) → lo ≤ a ∧ a ≤ b ∧ b ≤ hi

/-- An engine whose handler returns 0 whatever it is told. -/
def strict (s : State) : State := { s with error_handle := fun _ _ => .ok 0 }

/-- A call of a member function of the engine. -/
inductive Call where
  | add_token_type (pattern : List Nat) (type : Int)
  | add_token_type_named (pattern : List Nat) (type : Int) (token_type_string : List Nat)
  | add_builtin_token_type (type : builtin_token_type)
  | assign (str : List Nat)
  | next
  | peek
  | expect (expected : Int)
  | tryget (expected : Int)
  deriving DecidableEq, Repr

/-- The state a call leaves behind (also when it raises). -/
def Call.state : Call → State → State
  | .add_token_type p t, s => (Tokenizer.add_token_type s p t).st
  | .add_token_type_named p t n, s => (Tokenizer.add_token_type_named s p t n).st
  | .add_builtin_token_type k, s => (Tokenizer.add_builtin_token_type s k).st
  | .assign str, s => (Tokenizer.assign s str).st
  | .next, s => (Tokenizer.next s).st
  | .peek, s => (Tokenizer.peek s).st
  | .expect t, s => (Tokenizer.expect s t).st
  | .tryget t, s => (Tokenizer.tryget s t).st

/-- Is the call an `assign` that returns normally in the state `s`? -/
def Call.assigns : Call → State → Bool
  | .assign str, s => decide ((Tokenizer.assign s str).res = .ok ())
  | _, _ => false

/-- Is the call one of the registration functions? -/
def Call.registers : Call → Bool
  | .add_token_type _ _ => true
  | .add_token_type_named _ _ _ => true
  | .add_builtin_token_type _ => true
  | _ => false

/-- The state after a sequence of calls; a call that raises leaves its state
behind and the caller goes on. -/
def history : List Call → State → State
  | [], s => s
  | x :: rest, s => history rest (x.state s)

/-- Some `assign` of the sequence of calls returned normally. -/
def assign_returned : List Call → State → Bool
  | [], _ => false
  | x :: rest, s => x.assigns s || assign_returned rest (x.state s)

/-- One registration: the two-argument overload for `none`, the three-argument
overload with the display name otherwise. -/
def register_one (s : State) (e : List Nat × Int × Option (List Nat)) : State :=
  match e.2.2 with
  | none => (add_token_type s e.1 e.2.1).st
  | some name => (add_token_type_named s e.1 e.2.1 name).st

/-- A fresh engine on which the entries (pattern, type code, optional display
name) were registered in order. -/
def registered_named (entries : List (List Nat × Int × Option (List Nat))) : State :=
  entries.foldl register_one State.init

/-- The display name the registrations give the type code `t`: the name of the
first entry with that type code that has a name. -/
def first_name (entries : List (List Nat × Int × Option (List Nat))) (t : Int) :
    Option (List Nat) :=
  entries.findSome? (fun e => if e.2.1 = t then e.2.2 else none)

/-- The compiled NEWLINE builtin pattern `(?:\r\n)+|\n+|\r+`. -/
def newline_regex : Regex :=
  .alt (.plus true (.seq (.char 13) (.char 10))) (.alt (.plus true (.char 10)) (.plus true (.char 13)))

/-- The input made of `n` sequences `\r\n`. -/
def crlf_run : Nat → List Nat
  | 0 => []
  | n + 1 => 13 :: 10 :: crlf_run n

/-- An engine with only the NEWLINE builtin registered, right after `assign(text)`. -/
def newline_start (text : List Nat) : State :=
  (assign (add_builtin_token_type State.init .NEWLINE).st text).st

/-! ## Theorems -/

/-! ### The parser reads the composite string chunk by chunk -/
theorem steps_append (s : PState) (a b : List Nat) :
    steps s (a ++ b) = (steps s a).bind (fun s2 => steps s2 b) := by
  induction a generalizing s with
  | nil => simp [steps]
  | cons c rest ih =>
    simp only [List.cons_append, steps]
    cases h : step s c with
    | none => simp
    | some s2 => simp [ih]

theorem closeGroup_lift (cur : Frame) (S T : List (GKind × Frame)) (s2 : PState)
    (h : closeGroup cur S = some s2) :
    closeGroup cur (S ++ T) = some ⟨s2.mode, s2.cur, s2.stack ++ T⟩ := by
  cases S with
  | nil => simp [closeGroup] at h
  | cons hd rest =>
    obtain ⟨k, parent⟩ := hd
    cases k <;> simp only [closeGroup, List.cons_append] at h ⊢ <;>
      (cases h; rfl)

theorem applyQuant_lift (cur : Frame) (S T : List (GKind × Frame)) (mk : Regex → Regex)
    (s2 : PState) (h : applyQuant cur S mk = some s2) :
    applyQuant cur (S ++ T) mk = some ⟨s2.mode, s2.cur, s2.stack ++ T⟩ := by
  unfold applyQuant at h ⊢
  split at h
  · cases h; rfl
  · cases h

theorem makeLazy_lift (cur : Frame) (S T : List (GKind × Frame))
    (s2 : PState) (h : makeLazy cur S = some s2) :
    makeLazy cur (S ++ T) = some ⟨s2.mode, s2.cur, s2.stack ++ T⟩ := by
  unfold makeLazy at h ⊢
  split at h <;> first | (cases h; rfl) | cases h

theorem stepNormal_lift (q : QSt) (cur : Frame) (S T : List (GKind × Frame)) (c : Nat)
    (s2 : PState) (h : stepNormal q cur S c = some s2) :
    stepNormal q cur (S ++ T) c = some ⟨s2.mode, s2.cur, s2.stack ++ T⟩ := by
  unfold stepNormal at h ⊢
  by_cases h1 : c = 92
  · rw [if_pos h1] at h ⊢; cases h; rfl
  rw [if_neg h1] at h ⊢
  by_cases h2 : c = 40
  · rw [if_pos h2] at h ⊢; cases h; rfl
  rw [if_neg h2] at h ⊢
  by_cases h3 : c = 41
  · rw [if_pos h3] at h ⊢; exact closeGroup_lift _ _ _ _ h
  rw [if_neg h3] at h ⊢
  by_cases h4 : c = 124
  · rw [if_pos h4] at h ⊢; cases h; rfl
  rw [if_neg h4] at h ⊢
  by_cases h5 : c = 42
  · rw [if_pos h5] at h ⊢
    by_cases hq : q = .atom
    · rw [if_pos hq] at h ⊢; exact applyQuant_lift _ _ _ _ _ h
    · rw [if_neg hq] at h; cases h
  rw [if_neg h5] at h ⊢
  by_cases h6 : c = 43
  · rw [if_pos h6] at h ⊢
    by_cases hq : q = .atom
    · rw [if_pos hq] at h ⊢; exact applyQuant_lift _ _ _ _ _ h
    · rw [if_neg hq] at h; cases h
  rw [if_neg h6] at h ⊢
  by_cases h7 : c = 63
  · rw [if_pos h7] at h ⊢
    by_cases hq : q = .atom
    · rw [if_pos hq] at h ⊢; exact applyQuant_lift _ _ _ _ _ h
    · rw [if_neg hq] at h ⊢
      by_cases hq2 : q = .quantified
      · rw [if_pos hq2] at h ⊢; exact makeLazy_lift _ _ _ _ h
      · rw [if_neg hq2] at h; cases h
  rw [if_neg h7] at h ⊢
  by_cases h8 : c = 91
  · rw [if_pos h8] at h ⊢; cases h; rfl
  rw [if_neg h8] at h ⊢
  by_cases h9 : c = 46
  · rw [if_pos h9] at h ⊢; cases h; rfl
  rw [if_neg h9] at h ⊢
  by_cases h10 : c = 123 ∨ c = 94 ∨ c = 36
  · rw [if_pos h10] at h; cases h
  rw [if_neg h10] at h ⊢
  cases h; rfl

theorem stepCls_lift (acc : ClsAcc) (cur : Frame) (S T : List (GKind × Frame)) (c : Nat)
    (s2 : PState) (h : stepCls acc cur S c = some s2) :
    stepCls acc cur (S ++ T) c = some ⟨s2.mode, s2.cur, s2.stack ++ T⟩ := by
  unfold stepCls at h ⊢
  split_ifs at h ⊢
  · cases h; rfl
  · cases h; rfl
  · cases h; rfl
  · cases h; rfl
  · cases hc : clsAddChar acc c with
    | none => simp [hc] at h
    | some a => simp only [hc, Option.map_some', Option.some.injEq] at h ⊢; subst h; rfl

theorem step_lift (m : Mode) (cur : Frame) (S T : List (GKind × Frame)) (c : Nat) (s2 : PState)
    (h : step ⟨m, cur, S⟩ c = some s2) :
    step ⟨m, cur, S ++ T⟩ c = some ⟨s2.mode, s2.cur, s2.stack ++ T⟩ := by
  cases m with
  | normal q => exact stepNormal_lift _ _ _ _ _ _ h
  | esc =>
    simp only [step, stepEsc] at h ⊢
    split at h
    · cases h; rfl
    · split at h
      · cases h; rfl
      · cases h
  | opened =>
    simp only [step] at h ⊢
    split_ifs at h ⊢
    · cases h; rfl
    · exact stepNormal_lift _ _ _ _ _ _ h
  | openedQ =>
    simp only [step, stepOpenedQ] at h ⊢
    cases S with
    | nil => simp at h
    | cons hd rest =>
      simp only [List.cons_append] at h ⊢
      split_ifs at h ⊢ <;> first | (cases h; rfl)
  | clsStart =>
    simp only [step] at h ⊢
    split_ifs at h ⊢
    · cases h; rfl
    · exact stepCls_lift _ _ _ _ _ _ h
  | cls acc => exact stepCls_lift _ _ _ _ _ _ h
  | clsEsc acc =>
    simp only [step, stepClsEsc] at h ⊢
    split at h
    · split_ifs at h ⊢
      cases h; rfl
    · split at h
      · cases hc : clsAddChar acc _ with
        | none => simp [hc] at h
        | some a => simp only [hc, Option.map_some', Option.some.injEq] at h ⊢; subst h; rfl
      · cases h
  | clsOpen acc =>
    simp only [step, stepClsOpen] at h ⊢
    split_ifs at h ⊢
    split at h
    · exact stepCls_lift _ _ _ _ _ _ h
    · cases h

theorem steps_lift (p : List Nat) (m : Mode) (cur : Frame) (S T : List (GKind × Frame))
    (s2 : PState) (h : steps ⟨m, cur, S⟩ p = some s2) :
    steps ⟨m, cur, S ++ T⟩ p = some ⟨s2.mode, s2.cur, s2.stack ++ T⟩ := by
  induction p generalizing m cur S with
  | nil => simp only [steps] at h ⊢; cases h; rfl
  | cons c rest ih =>
    simp only [steps] at h ⊢
    cases hs : step ⟨m, cur, S⟩ c with
    | none => simp [hs] at h
    | some s1 =>
      rw [hs] at h
      rw [step_lift _ _ _ _ _ _ hs]
      exact ih _ _ _ h


theorem foldl_chunks (ps : List (List Nat)) (acc : List Nat) :
    ps.foldl (fun s item => s ++ (lit "(" ++ item ++ lit ")|")) acc = acc ++ chunks ps := by
  induction ps generalizing acc with
  | nil => simp [chunks]
  | cons p rest ih =>
    simp only [List.foldl, chunks]
    rw [ih]
    simp [List.append_assoc]

theorem composite_eq (ps : List (List Nat)) : composite ps = chunks ps ++ lit "(.)" := by
  unfold composite
  rw [foldl_chunks]
  simp

theorem finish_some (s : PState) (r : Regex) (h : finish s = some r) :
    (∃ q, s.mode = .normal q) ∧ s.stack = [] ∧ r = s.cur.toRegex := by
  unfold finish at h
  split at h
  · rename_i q hm hs
    cases h
    exact ⟨⟨q, hm⟩, hs, rfl⟩
  · cases h

theorem step_opened (cur : Frame) (S : List (GKind × Frame)) (c : Nat) (s2 : PState)
    (h : step ⟨.normal .none, cur, S⟩ c = some s2) :
    step ⟨.opened, cur, S⟩ c = some s2 := by
  simp only [step] at h ⊢
  by_cases hc : c = 63
  · subst hc
    simp [stepNormal] at h
  · rw [if_neg hc]; exact h

theorem steps_chunk (p : List Nat) (r : Regex) (hp : parseRegex p = some r)
    (q : QSt) (cur0 : Frame) (S0 : List (GKind × Frame)) :
    steps ⟨.normal q, cur0, S0⟩ (lit "(" ++ p ++ lit ")|") =
      some ⟨.normal .none, ⟨mkSeq (.group r :: cur0.seq).reverse :: cur0.alts, []⟩, S0⟩ := by
  unfold parseRegex at hp
  cases hsp : steps PState.init p with
  | none => simp [hsp] at hp
  | some sp =>
    rw [hsp] at hp
    simp only at hp
    obtain ⟨⟨q2, hm⟩, hst, hr⟩ := finish_some _ _ hp
    have hopen : steps ⟨.normal q, cur0, S0⟩ (lit "(") =
        some ⟨.opened, ⟨[], []⟩, (.cap, cur0) :: S0⟩ := by
      simp [lit, steps, step, stepNormal]
    have hbody : steps ⟨.opened, ⟨[], []⟩, (.cap, cur0) :: S0⟩ (p ++ lit ")|") =
        some ⟨.normal .none, ⟨mkSeq (.group r :: cur0.seq).reverse :: cur0.alts, []⟩, S0⟩ := by
      cases p with
      | nil =>
        simp only [steps] at hsp
        cases hsp
        simp [lit, steps, step, stepNormal, closeGroup, hr, PState.init]
      | cons c rest =>
        have hcons : (c :: rest) ++ lit ")|" = c :: (rest ++ lit ")|") := rfl
        rw [hcons]
        simp only [steps] at hsp ⊢
        cases hs1 : step PState.init c with
        | none => simp [hs1] at hsp
        | some s1 =>
          rw [hs1] at hsp
          simp only at hsp
          have h1 := step_lift _ _ [] ((GKind.cap, cur0) :: S0) c s1 hs1
          have h1b := step_opened _ _ _ _ h1
          simp only [List.nil_append] at h1b
          rw [h1b]
          simp only
          rw [steps_append]
          have h2 := steps_lift rest s1.mode s1.cur s1.stack ((GKind.cap, cur0) :: S0) sp hsp
          rw [h2, hst, hm]
          simp [lit, steps, step, stepNormal, closeGroup, hr]
    rw [List.append_assoc, steps_append, hopen]
    exact hbody

theorem steps_chunks (ps : List (List Nat)) (rs : List Regex)
    (h : List.Forall₂ (fun p r => parseRegex p = some r) ps rs) (A : List Regex) :
    steps ⟨.normal .none, ⟨A, []⟩, []⟩ (chunks ps) =
      some ⟨.normal .none, ⟨(rs.map Regex.group).reverse ++ A, []⟩, []⟩ := by
  induction h generalizing A with
  | nil => simp [chunks, steps]
  | cons hp _ ih =>
    simp only [chunks]
    rw [steps_append, steps_chunk _ _ hp]
    simp only [Option.some_bind, List.reverse_cons, List.reverse_nil, List.nil_append, mkSeq]
    rw [ih]
    simp

theorem parse_composite (ps : List (List Nat)) (rs : List Regex)
    (h : List.Forall₂ (fun p r => parseRegex p = some r) ps rs) :
    parseRegex (composite ps) = some (mkAlt (rs.map Regex.group ++ [.group .any])) := by
  rw [composite_eq]
  unfold parseRegex
  rw [steps_append, PState.init, steps_chunks ps rs h []]
  simp [lit, steps, step, stepNormal, closeGroup, pushAtom, finish, Frame.toRegex, mkSeq, mkAlt]

/-! ### The matcher: independence of the end offset from captures, and frame of the captures -/

theorem firstOf_rel (R : MRes → MRes → Prop)
    (hiff : ∀ x y, R x y → (x = none ↔ y = none)) (x y : MRes) (x2 y2 : Unit → MRes)
    (h1 : R x y) (h2 : R (x2 ()) (y2 ())) : R (firstOf x x2) (firstOf y y2) := by
  have := hiff x y h1
  cases x with
  | none =>
    have hy : y = none := this.mp rfl
    subst hy
    simpa [firstOf] using h2
  | some a =>
    cases y with
    | none => simp at this
    | some b => simpa [firstOf] using h1

theorem starLoop_rel (R : MRes → MRes → Prop) (hnone : R none none)
    (hiff : ∀ x y, R x y → (x = none ↔ y = none))
    (mr mr2 : Nat → Caps → Cont → MRes)
    (hmr : ∀ pos caps caps2 (k k2 : Cont), (∀ p c c2, R (k p c) (k2 p c2)) →
      R (mr pos caps k) (mr2 pos caps2 k2))
    (greedy : Bool) (fuel : Nat) :
    ∀ pos caps caps2 (k k2 : Cont), (∀ p c c2, R (k p c) (k2 p c2)) →
      R (starLoop mr greedy fuel pos caps k)
        (starLoop mr2 greedy fuel pos caps2 k2) := by
  induction fuel with
  | zero => intro pos caps caps2 k k2 hk; simpa [starLoop] using hk pos caps caps2
  | succ n ih =>
    intro pos caps caps2 k k2 hk
    have hiter : R (mr pos caps
          (fun p c => if pos < p then starLoop mr greedy n p c k else none))
        (mr2 pos caps2
          (fun p c => if pos < p then starLoop mr2 greedy n p c k2 else none)) := by
      apply hmr
      intro p c c2
      by_cases hp : pos < p
      · simp only [hp, if_true]; exact ih p c c2 k k2 hk
      · simp only [hp, if_false]; exact hnone
    cases greedy with
    | true =>
      simp only [starLoop, if_true]
      exact firstOf_rel R hiff _ _ _ _ hiter (hk pos caps caps2)
    | false =>
      simp only [starLoop, Bool.false_eq_true, if_false]
      refine firstOf_rel R hiff _ _ _ _ (hk pos caps caps2) ?_
      exact hiter

theorem matchRe_rel (inp : List Nat) (r : Regex) :
    ∀ (R : MRes → MRes → Prop), R none none → (∀ x y, R x y → (x = none ↔ y = none)) →
    ∀ (base base2 pos : Nat) (caps caps2 : Caps) (k k2 : Cont),
      (∀ p c c2, R (k p c) (k2 p c2)) →
      R (matchRe inp r base pos caps k) (matchRe inp r base2 pos caps2 k2) := by
  induction r with
  | empty => intro R _ _ base base2 pos caps caps2 k k2 hk; simpa [matchRe] using hk pos caps caps2
  | char c =>
    intro R hnone _ base base2 pos caps caps2 k k2 hk
    simp only [matchRe]
    split
    · exact hk _ _ _
    · exact hnone
  | any =>
    intro R hnone _ base base2 pos caps caps2 k k2 hk
    simp only [matchRe]
    split
    · split
      · exact hnone
      · exact hk _ _ _
    · exact hnone
  | cls neg items =>
    intro R hnone _ base base2 pos caps caps2 k k2 hk
    simp only [matchRe]
    split
    · split
      · exact hk _ _ _
      · exact hnone
    · exact hnone
  | seq a b iha ihb =>
    intro R hnone hiff base base2 pos caps caps2 k k2 hk
    simp only [matchRe]
    apply iha R hnone hiff
    intro p c c2
    exact ihb R hnone hiff _ _ _ _ _ _ _ hk
  | alt a b iha ihb =>
    intro R hnone hiff base base2 pos caps caps2 k k2 hk
    simp only [matchRe]
    exact firstOf_rel R hiff _ _ _ _ (iha R hnone hiff _ _ _ _ _ _ _ hk)
      (ihb R hnone hiff _ _ _ _ _ _ _ hk)
  | star greedy r ih =>
    intro R hnone hiff base base2 pos caps caps2 k k2 hk
    simp only [matchRe]
    exact starLoop_rel R hnone hiff _ _
      (fun pos caps caps2 k k2 hk => ih R hnone hiff _ _ pos caps caps2 k k2 hk)
      greedy _ pos caps caps2 k k2 hk
  | plus greedy r ih =>
    intro R hnone hiff base base2 pos caps caps2 k k2 hk
    simp only [matchRe]
    apply ih R hnone hiff
    intro p c c2
    exact starLoop_rel R hnone hiff _ _
      (fun pos caps caps2 k k2 hk => ih R hnone hiff _ _ pos caps caps2 k k2 hk)
      greedy _ p c c2 k k2 hk
  | opt greedy r ih =>
    intro R hnone hiff base base2 pos caps caps2 k k2 hk
    have hiter : R (matchRe inp r base pos caps
          (fun p c => if pos < p then k p c else none))
        (matchRe inp r base2 pos caps2
          (fun p c => if pos < p then k2 p c else none)) := by
      apply ih R hnone hiff
      intro p c c2
      by_cases hp : pos < p
      · simp only [hp, if_true]; exact hk _ _ _
      · simp only [hp, if_false]; exact hnone
    cases greedy with
    | true =>
      simp only [matchRe, if_true]
      exact firstOf_rel R hiff _ _ _ _ hiter (hk pos caps caps2)
    | false =>
      simp only [matchRe, Bool.false_eq_true, if_false]
      refine firstOf_rel R hiff _ _ _ _ (hk pos caps caps2) ?_
      exact hiter
  | group r ih =>
    intro R hnone hiff base base2 pos caps caps2 k k2 hk
    simp only [matchRe]
    apply ih R hnone hiff
    intro p c c2
    exact hk _ _ _
  | look neg r ih =>
    intro R hnone hiff base base2 pos caps caps2 k k2 hk
    simp only [matchRe]
    have hin := ih (fun x y => (x = none ↔ y = none)) (Iff.rfl) (fun _ _ h => h)
      base base2 pos caps caps2 (fun p c => some (p, c)) (fun p c => some (p, c))
      (fun p c c2 => by simp)
    cases hx : matchRe inp r base pos caps (fun p c => some (p, c)) with
    | none =>
      have hy := hin.mp hx
      rw [hy]
      cases neg with
      | true => simpa using hk pos caps caps2
      | false => simpa using hnone
    | some a =>
      cases hy : matchRe inp r base2 pos caps2 (fun p c => some (p, c)) with
      | none => rw [hin.mpr hy] at hx; cases hx
      | some b =>
        cases neg with
        | true => simpa using hnone
        | false => simpa using hk pos _ _

theorem CapsFrame.refl (base : Nat) (caps : Caps) : CapsFrame base caps caps :=
  ⟨rfl, fun _ _ => rfl⟩

theorem CapsFrame.trans {base base2 : Nat} {caps c c2 : Caps} (h1 : CapsFrame base caps c)
    (h2 : CapsFrame base2 c c2) (hle : base ≤ base2) : CapsFrame base caps c2 :=
  ⟨h2.1.trans h1.1, fun j hj => (h2.2 j (lt_of_lt_of_le hj hle)).trans (h1.2 j hj)⟩

theorem CapsFrame.set {base : Nat} {caps c : Caps} (h : CapsFrame (base + 1) caps c)
    (v : Option (Nat × Nat)) : CapsFrame base caps (c.set base v) := by
  refine ⟨by simpa using h.1, fun j hj => ?_⟩
  rw [List.getElem?_set_ne (by omega)]
  exact h.2 j (by omega)

theorem firstOf_some (x : MRes) (y : Unit → MRes) (v : Nat × Caps)
    (h : firstOf x y = some v) : x = some v ∨ y () = some v := by
  cases x with
  | none => right; simpa [firstOf] using h
  | some a => left; simpa [firstOf] using h

theorem starLoop_inv (inp : List Nat) (Post : Nat × Caps → Prop)
    (mr : Nat → Caps → Cont → MRes) (base : Nat) (greedy : Bool)
    (hmr : ∀ (Q : Nat × Caps → Prop) pos caps (k : Cont), pos ≤ inp.length →
      (∀ p c, CapsFrame base caps c → pos ≤ p → p ≤ inp.length → ∀ x, k p c = some x → Q x) →
      ∀ x, mr pos caps k = some x → Q x)
    (fuel : Nat) :
    ∀ pos caps (k : Cont), pos ≤ inp.length →
      (∀ p c, CapsFrame base caps c → pos ≤ p → p ≤ inp.length → ∀ x, k p c = some x → Post x) →
      ∀ x, starLoop mr greedy fuel pos caps k = some x → Post x := by
  induction fuel with
  | zero =>
    intro pos caps k hpos hk x hx
    simp only [starLoop] at hx
    exact hk pos caps (CapsFrame.refl _ _) (le_refl _) hpos x hx
  | succ n ih =>
    intro pos caps k hpos hk x hx
    have hiter : ∀ x, mr pos caps
        (fun p c => if pos < p then starLoop mr greedy n p c k else none) = some x →
        Post x := by
      apply hmr Post pos _ _ hpos
      intro p c hc hp hpl x hx
      by_cases hlt : pos < p
      · simp only [hlt, if_true] at hx
        refine ih p c k hpl ?_ x hx
        intro p2 c2 hc2 hp2 hpl2 x2 hx2
        exact hk p2 c2 (hc.trans hc2
          (le_refl _)) (by omega) hpl2 x2 hx2
      · simp only [hlt, if_false] at hx; cases hx
    have hexit : ∀ x, k pos caps = some x → Post x :=
      fun x hx => hk pos caps (CapsFrame.refl _ _) (le_refl _) hpos x hx
    cases greedy with
    | true =>
      simp only [starLoop, if_true] at hx
      rcases firstOf_some _ _ _ hx with h | h
      · exact hiter x h
      · exact hexit x h
    | false =>
      simp only [starLoop, Bool.false_eq_true, if_false] at hx
      rcases firstOf_some _ _ _ hx with h | h
      · exact hexit x h
      · exact hiter x h

theorem matchRe_inv (inp : List Nat) (r : Regex) :
    ∀ (Post : Nat × Caps → Prop) (base pos : Nat) (caps : Caps) (k : Cont),
      pos ≤ inp.length →
      (∀ p c, CapsFrame base caps c → pos ≤ p → p ≤ inp.length → ∀ x, k p c = some x → Post x) →
      ∀ x, matchRe inp r base pos caps k = some x → Post x := by
  induction r with
  | empty =>
    intro Post base pos caps k hpos hk x hx
    simp only [matchRe] at hx
    exact hk pos caps (CapsFrame.refl _ _) (le_refl _) hpos x hx
  | char c =>
    intro Post base pos caps k hpos hk x hx
    simp only [matchRe] at hx
    split at hx
    · rename_i hc
      have hlt : pos < inp.length := by
        by_contra hge
        rw [List.getElem?_eq_none (by omega)] at hc
        cases hc
      exact hk _ caps (CapsFrame.refl _ _) (by omega) (by omega) x hx
    · cases hx
  | any =>
    intro Post base pos caps k hpos hk x hx
    simp only [matchRe] at hx
    split at hx
    · rename_i u hc
      have hlt : pos < inp.length := by
        by_contra hge
        rw [List.getElem?_eq_none (by omega)] at hc
        cases hc
      split at hx
      · cases hx
      · exact hk _ caps (CapsFrame.refl _ _) (by omega) (by omega) x hx
    · cases hx
  | cls neg items =>
    intro Post base pos caps k hpos hk x hx
    simp only [matchRe] at hx
    split at hx
    · rename_i u hc
      have hlt : pos < inp.length := by
        by_contra hge
        rw [List.getElem?_eq_none (by omega)] at hc
        cases hc
      split at hx
      · exact hk _ caps (CapsFrame.refl _ _) (by omega) (by omega) x hx
      · cases hx
    · cases hx
  | seq a b iha ihb =>
    intro Post base pos caps k hpos hk x hx
    simp only [matchRe] at hx
    refine iha Post base pos caps _ hpos ?_ x hx
    intro p c hc hp hpl x2 hx2
    refine ihb Post _ p c k hpl ?_ x2 hx2
    intro p2 c2 hc2 hp2 hpl2 x3 hx3
    exact hk p2 c2 (hc.trans hc2 (by omega)) (by omega) hpl2 x3 hx3
  | alt a b iha ihb =>
    intro Post base pos caps k hpos hk x hx
    simp only [matchRe] at hx
    rcases firstOf_some _ _ _ hx with h | h
    · exact iha Post base pos caps k hpos hk x h
    · refine ihb Post _ pos caps k hpos ?_ x h
      intro p c hc hp hpl x2 hx2
      exact hk p c ⟨hc.1, fun j hj => hc.2 j (by omega)⟩ hp hpl x2 hx2
  | star greedy r ih =>
    intro Post base pos caps k hpos hk x hx
    simp only [matchRe] at hx
    exact starLoop_inv inp Post _ base greedy
      (fun Q pos caps k hpos hk x hx => ih Q base pos caps k hpos hk x hx)
      _ pos caps k hpos hk x hx
  | plus greedy r ih =>
    intro Post base pos caps k hpos hk x hx
    simp only [matchRe] at hx
    refine ih Post base pos _ _ hpos ?_ x hx
    intro p c hc hp hpl x2 hx2
    refine starLoop_inv inp Post _ base greedy
      (fun Q pos caps k hpos hk x hx => ih Q base pos caps k hpos hk x hx)
      _ p c k hpl ?_ x2 hx2
    intro p2 c2 hc2 hp2 hpl2 x3 hx3
    exact hk p2 c2 (hc.trans hc2 (le_refl _))
      (by omega) hpl2 x3 hx3
  | opt greedy r ih =>
    intro Post base pos caps k hpos hk x hx
    have hiter : ∀ x, matchRe inp r base pos caps
        (fun p c => if pos < p then k p c else none) = some x → Post x := by
      intro x hx
      refine ih Post base pos _ _ hpos ?_ x hx
      intro p c hc hp hpl x2 hx2
      by_cases hlt : pos < p
      · simp only [hlt, if_true] at hx2
        exact hk p c hc hp hpl x2 hx2
      · simp only [hlt, if_false] at hx2; cases hx2
    have hexit : ∀ x, k pos caps = some x → Post x :=
      fun x hx => hk pos caps (CapsFrame.refl _ _) (le_refl _) hpos x hx
    cases greedy with
    | true =>
      simp only [matchRe, if_true] at hx
      rcases firstOf_some _ _ _ hx with h | h
      · exact hiter x h
      · exact hexit x h
    | false =>
      simp only [matchRe, Bool.false_eq_true, if_false] at hx
      rcases firstOf_some _ _ _ hx with h | h
      · exact hexit x h
      · exact hiter x h
  | group r ih =>
    intro Post base pos caps k hpos hk x hx
    simp only [matchRe] at hx
    refine ih Post (base + 1) pos caps _ hpos ?_ x hx
    intro p c hc hp hpl x2 hx2
    exact hk p _ (hc.set _) hp hpl x2 hx2
  | look neg r ih =>
    intro Post base pos caps k hpos hk x hx
    simp only [matchRe] at hx
    cases hin : matchRe inp r base pos caps (fun p c => some (p, c)) with
    | none =>
      rw [hin] at hx
      cases neg with
      | true =>
        simp only [if_true] at hx
        exact hk pos caps (CapsFrame.refl _ _) (le_refl _) hpos x hx
      | false => simp at hx
    | some a =>
      rw [hin] at hx
      cases neg with
      | true => simp at hx
      | false =>
        simp only [Bool.false_eq_true, if_false] at hx
        have hfr : CapsFrame base caps a.2 := by
          refine ih (fun y => CapsFrame base caps y.2) base pos caps _ hpos ?_ a hin
          intro p c hc _ _ y hy
          cases hy
          exact hc
        exact hk pos a.2 hfr (le_refl _) hpos x hx

/-! ### The iteration bound of `starLoop` is never the reason a loop stops -/

theorem matchRe_fail (inp : List Nat) (r : Regex) (base pos : Nat) (caps : Caps) :
    matchRe inp r base pos caps (fun _ _ => none) = none :=
  (matchRe_rel inp r (fun x y => x = none ∧ y = none) ⟨rfl, rfl⟩
    (fun _ _ h => ⟨fun _ => h.2, fun _ => h.1⟩) base base pos caps caps _ _
    (fun _ _ _ => ⟨rfl, rfl⟩)).1

theorem starLoop_congr (inp : List Nat) (mr : Nat → Caps → Cont → MRes)
    (hmr : ∀ pos caps (k k2 : Cont), pos ≤ inp.length →
      (∀ p cs, pos ≤ p → p ≤ inp.length → k p cs = k2 p cs) → mr pos caps k = mr pos caps k2)
    (greedy : Bool) (fuel : Nat) :
    ∀ pos caps (k k2 : Cont), pos ≤ inp.length →
      (∀ p cs, pos ≤ p → p ≤ inp.length → k p cs = k2 p cs) →
      starLoop mr greedy fuel pos caps k = starLoop mr greedy fuel pos caps k2 := by
  induction fuel with
  | zero =>
    intro pos caps k k2 hpos hk
    simp only [starLoop]
    exact hk pos caps (le_refl _) hpos
  | succ n ih =>
    intro pos caps k k2 hpos hk
    have hiter : mr pos caps
          (fun p cs => if pos < p then starLoop mr greedy n p cs k else none) =
        mr pos caps
          (fun p cs => if pos < p then starLoop mr greedy n p cs k2 else none) := by
      apply hmr _ _ _ _ hpos
      intro p cs hp hpl
      by_cases hlt : pos < p
      · simp only [hlt, if_true]
        exact ih p cs k k2 hpl (fun p2 cs2 hp2 hpl2 => hk p2 cs2 (by omega) hpl2)
      · simp only [hlt, if_false]
    simp only [starLoop, hiter, hk pos caps (le_refl _) hpos]

/-- Two continuations that agree on the offsets from `pos` to the end of the
input are interchangeable: the matcher only ever moves forward inside the input. -/
theorem matchRe_congr (inp : List Nat) (r : Regex) :
    ∀ (base pos : Nat) (caps : Caps) (k k2 : Cont), pos ≤ inp.length →
      (∀ p cs, pos ≤ p → p ≤ inp.length → k p cs = k2 p cs) →
      matchRe inp r base pos caps k = matchRe inp r base pos caps k2 := by
  induction r with
  | empty =>
    intro base pos caps k k2 hpos hk
    simp only [matchRe]
    exact hk pos caps (le_refl _) hpos
  | char a =>
    intro base pos caps k k2 hpos hk
    simp only [matchRe]
    split
    · rename_i hc
      have hlt : pos < inp.length := by
        by_contra hge
        rw [List.getElem?_eq_none (by omega)] at hc
        cases hc
      exact hk _ caps (by omega) (by omega)
    · rfl
  | any =>
    intro base pos caps k k2 hpos hk
    simp only [matchRe]
    split
    · rename_i u hc
      have hlt : pos < inp.length := by
        by_contra hge
        rw [List.getElem?_eq_none (by omega)] at hc
        cases hc
      rw [hk _ caps (by omega) (by omega)]
    · rfl
  | cls neg items =>
    intro base pos caps k k2 hpos hk
    simp only [matchRe]
    split
    · rename_i u hc
      have hlt : pos < inp.length := by
        by_contra hge
        rw [List.getElem?_eq_none (by omega)] at hc
        cases hc
      rw [hk _ caps (by omega) (by omega)]
    · rfl
  | seq a b iha ihb =>
    intro base pos caps k k2 hpos hk
    simp only [matchRe]
    apply iha _ _ _ _ _ hpos
    intro p cs hp hpl
    exact ihb _ _ _ _ _ hpl (fun p2 cs2 hp2 hpl2 => hk p2 cs2 (by omega) hpl2)
  | alt a b iha ihb =>
    intro base pos caps k k2 hpos hk
    simp only [matchRe]
    rw [iha _ _ _ _ _ hpos hk, ihb _ _ _ _ _ hpos hk]
  | star greedy r ih =>
    intro base pos caps k k2 hpos hk
    simp only [matchRe]
    exact starLoop_congr inp _ (fun pos caps k k2 hpos hk => ih base pos caps k k2 hpos hk)
      greedy _ pos caps k k2 hpos hk
  | plus greedy r ih =>
    intro base pos caps k k2 hpos hk
    simp only [matchRe]
    apply ih _ _ _ _ _ hpos
    intro p cs hp hpl
    exact starLoop_congr inp _ (fun pos caps k k2 hpos hk => ih base pos caps k k2 hpos hk)
      greedy _ p cs k k2 hpl (fun p2 cs2 hp2 hpl2 => hk p2 cs2 (by omega) hpl2)
  | opt greedy r ih =>
    intro base pos caps k k2 hpos hk
    have hiter : matchRe inp r base pos caps
          (fun p cs => if pos < p then k p cs else none) =
        matchRe inp r base pos caps
          (fun p cs => if pos < p then k2 p cs else none) := by
      apply ih _ _ _ _ _ hpos
      intro p cs hp hpl
      by_cases hlt : pos < p
      · simp only [hlt, if_true]; exact hk p cs hp hpl
      · simp only [hlt, if_false]
    simp only [matchRe, hiter, hk pos caps (le_refl _) hpos]
  | group r ih =>
    intro base pos caps k k2 hpos hk
    simp only [matchRe]
    apply ih _ _ _ _ _ hpos
    intro p cs hp hpl
    exact hk p _ hp hpl
  | look neg r ih =>
    intro base pos caps k k2 hpos hk
    simp only [matchRe]
    split
    · rw [hk pos _ (le_refl _) hpos]
    · rw [hk pos _ (le_refl _) hpos]

/-- Adequacy of the iteration bound: from an offset inside the input, every
bound of at least `length - pos` iterations gives the result of the bound
`length - pos` that `matchRe` uses, because each iteration consumes a unit. -/
theorem starLoop_fuel (inp : List Nat) (r : Regex) (greedy : Bool) (base : Nat) (n : Nat) :
    ∀ (m pos : Nat) (caps : Caps) (k : Cont), pos ≤ inp.length →
      inp.length - pos ≤ n → inp.length - pos ≤ m →
      starLoop (fun p cs k2 => matchRe inp r base p cs k2) greedy n pos caps k =
        starLoop (fun p cs k2 => matchRe inp r base p cs k2) greedy m pos caps k := by
  have hstop : ∀ (j pos : Nat) (caps : Caps) (k : Cont), pos = inp.length →
      starLoop (fun p cs k2 => matchRe inp r base p cs k2) greedy j pos caps k
        = k pos caps := by
    intro j pos caps k hpos
    cases j with
    | zero => rfl
    | succ j =>
      have hiter : matchRe inp r base pos caps
          (fun p cs => if pos < p then
            starLoop (fun p cs k2 => matchRe inp r base p cs k2) greedy j p cs k
            else none) = none := by
        rw [matchRe_congr inp r base pos _ _ (fun _ _ => none) (by omega)]
        · exact matchRe_fail inp r base pos _
        · intro p cs hp hpl
          have : ¬ pos < p := by omega
          simp only [this, if_false]
      simp only [starLoop, hiter]
      cases greedy with
      | true => simp [firstOf]
      | false =>
        simp only [Bool.false_eq_true, if_false]
        cases k pos caps <;> rfl
  induction n with
  | zero =>
    intro m pos caps k hpos hn hm
    rw [hstop 0 pos caps k (by omega), hstop m pos caps k (by omega)]
  | succ n ih =>
    intro m pos caps k hpos hn hm
    cases m with
    | zero => rw [hstop (n + 1) pos caps k (by omega), hstop 0 pos caps k (by omega)]
    | succ m =>
      have hiter : matchRe inp r base pos caps
          (fun p cs => if pos < p then
            starLoop (fun p cs k2 => matchRe inp r base p cs k2) greedy n p cs k
            else none) =
          matchRe inp r base pos caps
          (fun p cs => if pos < p then
            starLoop (fun p cs k2 => matchRe inp r base p cs k2) greedy m p cs k
            else none) := by
        apply matchRe_congr inp r base pos _ _ _ hpos
        intro p cs hp hpl
        by_cases hlt : pos < p
        · simp only [hlt, if_true]
          exact ih m p cs k hpl (by omega) (by omega)
        · simp only [hlt, if_false]
      simp only [starLoop, hiter]

/-! ### A term that cannot match the empty string consumes a unit -/

/-- What follows a term that cannot match the empty string is only ever asked
for offsets beyond the one the term started at. -/
theorem matchRe_consumes (inp : List Nat) (r : Regex) :
    ∀ (base pos : Nat) (caps : Caps) (k k2 : Cont), nullable r = false → pos ≤ inp.length →
      (∀ p cs, pos < p → p ≤ inp.length → k p cs = k2 p cs) →
      matchRe inp r base pos caps k = matchRe inp r base pos caps k2 := by
  induction r with
  | empty => intro base pos caps k k2 hn; simp [nullable] at hn
  | char a =>
    intro base pos caps k k2 _ hpos hk
    simp only [matchRe]
    split
    · rename_i hc
      have hlt : pos < inp.length := by
        by_contra hge
        rw [List.getElem?_eq_none (by omega)] at hc
        cases hc
      exact hk _ caps (by omega) (by omega)
    · rfl
  | any =>
    intro base pos caps k k2 _ hpos hk
    simp only [matchRe]
    split
    · rename_i u hc
      have hlt : pos < inp.length := by
        by_contra hge
        rw [List.getElem?_eq_none (by omega)] at hc
        cases hc
      rw [hk _ caps (by omega) (by omega)]
    · rfl
  | cls neg items =>
    intro base pos caps k k2 _ hpos hk
    simp only [matchRe]
    split
    · rename_i u hc
      have hlt : pos < inp.length := by
        by_contra hge
        rw [List.getElem?_eq_none (by omega)] at hc
        cases hc
      rw [hk _ caps (by omega) (by omega)]
    · rfl
  | seq a b iha ihb =>
    intro base pos caps k k2 hn hpos hk
    simp only [matchRe]
    cases ha : nullable a with
    | false =>
      apply iha _ _ _ _ _ ha hpos
      intro p cs hp hpl
      exact matchRe_congr inp b _ _ _ _ _ hpl (fun p2 cs2 hp2 hpl2 => hk p2 cs2 (by omega) hpl2)
    | true =>
      have hb : nullable b = false := by simpa [nullable, ha] using hn
      apply matchRe_congr inp a _ _ _ _ _ hpos
      intro p cs hp hpl
      exact ihb _ _ _ _ _ hb hpl (fun p2 cs2 hp2 hpl2 => hk p2 cs2 (by omega) hpl2)
  | alt a b iha ihb =>
    intro base pos caps k k2 hn hpos hk
    have hab : nullable a = false ∧ nullable b = false := by simpa [nullable] using hn
    simp only [matchRe]
    rw [iha _ _ _ _ _ hab.1 hpos hk, ihb _ _ _ _ _ hab.2 hpos hk]
  | star greedy r ih => intro base pos caps k k2 hn; simp [nullable] at hn
  | plus greedy r ih =>
    intro base pos caps k k2 hn hpos hk
    have hr : nullable r = false := by simpa [nullable] using hn
    simp only [matchRe]
    apply ih _ _ _ _ _ hr hpos
    intro p cs hp hpl
    exact starLoop_congr inp _
      (fun pos caps k k2 hpos hk => matchRe_congr inp r base pos caps k k2 hpos hk)
      greedy _ p cs k k2 hpl (fun p2 cs2 hp2 hpl2 => hk p2 cs2 (by omega) hpl2)
  | opt greedy r ih => intro base pos caps k k2 hn; simp [nullable] at hn
  | group r ih =>
    intro base pos caps k k2 hn hpos hk
    have hr : nullable r = false := by simpa [nullable] using hn
    simp only [matchRe]
    apply ih _ _ _ _ _ hr hpos
    intro p cs hp hpl
    exact hk p _ hp hpl
  | look neg r ih => intro base pos caps k k2 hn; simp [nullable] at hn

/-- Under a quantifier of a `supported` pattern the test that rejects an empty
iteration changes nothing: the body never ends where it started. -/
theorem guard_inert (inp : List Nat) (r : Regex) (base pos : Nat) (caps : Caps) (k : Cont)
    (hn : nullable r = false) (hpos : pos ≤ inp.length) :
    matchRe inp r base pos caps (fun p cs => if pos < p then k p cs else none) =
      matchRe inp r base pos caps k :=
  matchRe_consumes inp r base pos caps _ _ hn hpos
    (fun p cs hp _ => by simp only [hp, if_true])

/-! ### The composite alternation -/

theorem firstMatchedFrom_eq (n : Nat) : ∀ (l : Caps) (i : Nat) (v : Nat × Nat),
    (∀ j, j < n → l[j]? = some none) → l[n]? = some (some v) →
    firstMatchedFrom l i = i + n := by
  induction n with
  | zero =>
    intro l i v _ hv
    cases l with
    | nil => simp at hv
    | cons a rest =>
      simp only [List.getElem?_cons_zero, Option.some.injEq] at hv
      subst hv
      simp [firstMatchedFrom]
  | succ n ih =>
    intro l i v hnone hv
    cases l with
    | nil => simp at hv
    | cons a rest =>
      have h0 := hnone 0 (by omega)
      simp only [List.getElem?_cons_zero, Option.some.injEq] at h0
      subst h0
      simp only [firstMatchedFrom]
      rw [ih rest (i + 1) v (fun j hj => by simpa using hnone (j + 1) (by omega))
        (by simpa using hv)]
      omega

theorem firstMatched_eq (cs : Caps) (b : Nat) (v : Nat × Nat) (hb : 1 ≤ b)
    (hnone : ∀ j, 1 ≤ j → j < b → cs[j]? = some none) (hv : cs[b]? = some (some v)) :
    firstMatched cs = b := by
  obtain ⟨n, rfl⟩ : ∃ n, b = n + 1 := ⟨b - 1, by omega⟩
  cases cs with
  | nil => simp at hv
  | cons a rest =>
    simp only [firstMatched, List.tail_cons]
    rw [firstMatchedFrom_eq n rest 1 v
      (fun j hj => by simpa using hnone (j + 1) (by omega) (by omega)) (by simpa using hv)]
    omega

theorem matchEnd_group (inp : List Nat) (r : Regex) (b pos : Nat) (caps : Caps) :
    (matchRe inp (.group r) b pos caps (accept pos)).map Prod.fst = matchEnd inp r pos := by
  unfold matchEnd matchAt
  simp only [matchRe]
  exact matchRe_rel inp r (fun x y => x.map Prod.fst = y.map Prod.fst) rfl
    (fun x y h => by cases x <;> cases y <;> simp_all) _ _ pos _ _ _ _
    (fun p c c2 => by simp [accept])

/-- What a successful attempt of alternative `b` leaves in the sub-match table. -/
theorem group_result (inp : List Nat) (r : Regex) (b pos : Nat) (caps : Caps)
    (hb : 1 ≤ b) (hlen : b < caps.length) (hpos : pos ≤ inp.length)
    (hnone : ∀ j, 1 ≤ j → j < b → caps[j]? = some none)
    (x : Nat × Caps) (hx : matchRe inp (.group r) b pos caps (accept pos) = some x) :
    firstMatched x.2 = b ∧ x.2[b]? = some (some (pos, x.1)) ∧ pos ≤ x.1 ∧ x.1 ≤ inp.length ∧
      x.2[0]? = some (some (pos, x.1)) := by
  simp only [matchRe] at hx
  refine matchRe_inv inp r
    (fun x => firstMatched x.2 = b ∧ x.2[b]? = some (some (pos, x.1)) ∧ pos ≤ x.1 ∧
      x.1 ≤ inp.length ∧ x.2[0]? = some (some (pos, x.1))) (b + 1) pos caps _ hpos ?_ x hx
  intro p cs hcs hp hpl y hy
  simp only [accept, Option.some.injEq] at hy
  subst hy
  have hb0 : b ≠ 0 := by omega
  have hget : ((cs.set b (some (pos, p))).set 0 (some (pos, p)))[b]? = some (some (pos, p)) := by
    rw [List.getElem?_set_ne (by omega), List.getElem?_set_self]
    simp [hcs.1, hlen]
  have hget0 : ((cs.set b (some (pos, p))).set 0 (some (pos, p)))[0]? = some (some (pos, p)) := by
    rw [List.getElem?_set_self]
    simp only [List.length_set, hcs.1]
    omega
  refine ⟨firstMatched_eq _ b (pos, p) hb ?_ hget, hget, hp, hpl, hget0⟩
  intro j hj1 hjb
  rw [List.getElem?_set_ne (by omega), List.getElem?_set_ne (by omega), hcs.2 j (by omega)]
  exact hnone j hj1 hjb


theorem mkAlt_cons (a : Regex) (l : List Regex) (hl : l ≠ []) :
    mkAlt (a :: l) = .alt a (mkAlt l) := by
  cases l with
  | nil => exact absurd rfl hl
  | cons b rest => rfl

theorem ngroups_mkAlt_cons (a : Regex) (l : List Regex) :
    ngroups (mkAlt (a :: l)) = ngroups a + ngroups (mkAlt l) := by
  cases l with
  | nil => simp [mkAlt, ngroups]
  | cons b rest => simp [mkAlt, ngroups]

/-- The composite alternation against the registered patterns taken one by one. -/
theorem matchRe_composite (inp : List Nat) (rs : List Regex) :
    ∀ (b pos : Nat) (caps : Caps), 1 ≤ b → pos ≤ inp.length →
      b + ngroups (mkAlt (rs.map Regex.group ++ [.group .any])) ≤ caps.length →
      (∀ j, 1 ≤ j → j < caps.length → caps[j]? = some none) →
      (firstAlt inp rs pos = none →
        matchRe inp (mkAlt (rs.map Regex.group ++ [.group .any])) b pos caps (accept pos) = none) ∧
      (∀ i e, firstAlt inp rs pos = some (i, e) →
        ∃ cs, matchRe inp (mkAlt (rs.map Regex.group ++ [.group .any])) b pos caps (accept pos)
            = some (e, cs) ∧
          firstMatched cs = groupIndex rs b i ∧
          cs[groupIndex rs b i]? = some (some (pos, e)) ∧ pos ≤ e ∧ e ≤ inp.length ∧
          cs[0]? = some (some (pos, e))) := by
  induction rs with
  | nil =>
    intro b pos caps hb hpos hlen hnone
    have hlen2 : b < caps.length := by
      simp [mkAlt, ngroups] at hlen; omega
    simp only [List.map_nil, List.nil_append, mkAlt, firstAlt]
    constructor
    · intro h
      have hres := matchEnd_group inp .any b pos caps
      cases hx : matchRe inp (.group .any) b pos caps (accept pos) with
      | none => rfl
      | some x =>
        exfalso
        simp only [matchRe, accept] at hx
        split at hx
        · rename_i u hu
          rw [hu] at h
          split at hx
          · cases hx
          · rename_i hterm; simp [hterm] at h
        · cases hx
    · intro i e h
      cases hx : matchRe inp (.group .any) b pos caps (accept pos) with
      | none =>
        exfalso
        simp only [matchRe, accept] at hx
        split at hx
        · rename_i u hu
          split at hx
          · rename_i hterm; simp [hu, hterm] at h
          · cases hx
        · rename_i hu; simp [hu] at h
      | some x =>
        have hg := group_result inp .any b pos caps hb hlen2 hpos
          (fun j h1 h2 => hnone j h1 (by omega)) x hx
        have he : x.1 = e ∧ i = 0 := by
          simp only [matchRe, accept] at hx
          split at hx
          · rename_i u hu
            split at hx
            · cases hx
            · rename_i hterm
              simp only [hu, hterm] at h
              simp only [Bool.false_eq_true, if_false, Option.some.injEq, Prod.mk.injEq] at h
              cases hx
              exact ⟨h.2, h.1.symm⟩
          · cases hx
        obtain ⟨rfl, rfl⟩ := he
        exact ⟨x.2, rfl, by simpa [groupIndex] using hg⟩
  | cons r rest ih =>
    intro b pos caps hb hpos hlen hnone
    have hne : rest.map Regex.group ++ [Regex.group .any] ≠ [] := by simp
    have hcons : (r :: rest).map Regex.group ++ [Regex.group .any] =
        .group r :: (rest.map Regex.group ++ [.group .any]) := rfl
    rw [hcons, mkAlt_cons _ _ hne]
    rw [hcons, ngroups_mkAlt_cons] at hlen
    simp only [ngroups] at hlen
    have hlen2 : b < caps.length := by omega
    have hres := matchEnd_group inp r b pos caps
    have ih2 := ih (b + ngroups r + 1) pos caps (by omega) hpos (by omega) hnone
    simp only [matchRe, firstAlt] at hres ⊢
    constructor
    · intro h
      cases hm : matchEnd inp r pos with
      | some e => simp [hm] at h
      | none =>
        rw [hm] at h hres
        have h1 : matchRe inp r (b + 1) pos caps
            (fun p c => accept pos p (c.set b (some (pos, p)))) = none := by
          simpa using hres
        rw [h1]
        simp only [firstOf, ngroups]
        apply ih2.1
        simpa using h
    · intro i e h
      cases hm : matchEnd inp r pos with
      | some e2 =>
        rw [hm] at h hres
        simp only [Option.some.injEq, Prod.mk.injEq] at h
        obtain ⟨rfl, rfl⟩ := h
        cases hx : matchRe inp r (b + 1) pos caps
            (fun p c => accept pos p (c.set b (some (pos, p)))) with
        | none => rw [hx] at hres; simp at hres
        | some x =>
          rw [hx] at hres
          simp only [Option.map_some', Option.some.injEq] at hres
          have hg := group_result inp r b pos caps hb hlen2 hpos
            (fun j h1 h2 => hnone j h1 (by omega)) x (by simpa [matchRe] using hx)
          subst hres
          exact ⟨x.2, by simp [firstOf], by simpa [groupIndex] using hg⟩
      | none =>
        rw [hm] at h hres
        have h1 : matchRe inp r (b + 1) pos caps
            (fun p c => accept pos p (c.set b (some (pos, p)))) = none := by
          simpa using hres
        rw [h1]
        simp only [firstOf, ngroups]
        cases hf : firstAlt inp rest pos with
        | none => simp [hf] at h
        | some y =>
          rw [hf] at h
          simp only [Option.map_some', Option.some.injEq, Prod.mk.injEq] at h
          obtain ⟨rfl, rfl⟩ := h
          obtain ⟨cs, h2, h3⟩ := ih2.2 y.1 y.2 hf
          exact ⟨cs, h2, by simpa [groupIndex] using h3⟩

/-! ### Registration and the start of a session -/

theorem registered_aux (entries : List (List Nat × Int)) : ∀ (s : State), s.status = 0 →
    let s2 := entries.foldl (fun st e => (add_token_type st e.1 e.2).st) s
    s2.pattern_list = s.pattern_list ++ entries.map Prod.fst ∧
    s2.type_map = s.type_map ++ entries.map Prod.snd ∧ s2.status = 0 ∧ s2.line = s.line ∧
    s2.error_handle = s.error_handle ∧ s2.token_type_string_list = s.token_type_string_list := by
  induction entries with
  | nil => intro s hs; simp [hs]
  | cons e rest ih =>
    intro s hs
    simp only [List.foldl_cons]
    have h1 : (add_token_type s e.1 e.2).st =
        { s with pattern_list := s.pattern_list ++ [e.1], type_map := s.type_map ++ [e.2] } := by
      simp [add_token_type, hs]
    rw [h1]
    have := ih { s with pattern_list := s.pattern_list ++ [e.1], type_map := s.type_map ++ [e.2] } hs
    simp only at this ⊢
    obtain ⟨a1, a2, a3, a4, a5, a6⟩ := this
    refine ⟨by rw [a1]; simp, by rw [a2]; simp, a3, a4, a5, a6⟩

theorem registered_spec (entries : List (List Nat × Int)) :
    (registered entries).pattern_list = entries.map Prod.fst ∧
    (registered entries).type_map = -1 :: entries.map Prod.snd ∧
    (registered entries).status = 0 ∧ (registered entries).line = 1 ∧
    (registered entries).error_handle = default_error_handle := by
  have := registered_aux entries State.init rfl
  simp only at this
  obtain ⟨a1, a2, a3, a4, a5, _⟩ := this
  exact ⟨by rw [registered, a1]; rfl, by rw [registered, a2]; rfl, a3, by rw [registered, a4]; rfl,
    by rw [registered, a5]; rfl⟩

theorem parse_entries (entries : List (List Nat × Int)) (rs : List Regex)
    (hwf : WellFormed entries rs) :
    parseRegex (composite (entries.map Prod.fst)) =
      some (mkAlt (rs.map Regex.group ++ [.group .any])) := by
  apply parse_composite
  unfold WellFormed at hwf
  induction hwf with
  | nil => exact List.Forall₂.nil
  | cons h _ ih => exact List.Forall₂.cons h ih

/-- After `assign` on well-formed entries the engine is at the start of a session. -/
theorem start_spec (entries : List (List Nat × Int)) (rs : List Regex) (text : List Nat)
    (hwf : WellFormed entries rs) :
    Session entries text (start entries text) ∧ (start entries text).cur = 0 ∧
    (start entries text).prev = 0 ∧ (start entries text).line = 1 ∧
    (start entries text).status = 1 ∧ (assign (registered entries) text).res = .ok () := by
  obtain ⟨a1, a2, a3, a4, a5⟩ := registered_spec entries
  have hp := parse_entries entries rs hwf
  unfold start Session assign make_pattern
  simp only [a1, hp]
  simp [a2, a4]

theorem firstAlt_fallback (inp : List Nat) (rs : List Regex) : ∀ (pos u : Nat),
    inp[pos]? = some u → isLineTerminator u = false →
    (∀ (j : Nat) r, rs[j]? = some r → matchEnd inp r pos = none) →
    firstAlt inp rs pos = some (rs.length, pos + 1) := by
  induction rs with
  | nil => intro pos u hu ht _; simp [firstAlt, hu, ht]
  | cons r0 rest ih =>
    intro pos u hu ht hnone
    have h0 := hnone 0 r0 (by simp)
    simp only [firstAlt, h0]
    rw [ih pos u hu ht (fun j r hr => hnone (j + 1) r (by simpa using hr))]
    rfl

theorem firstAlt_none (inp : List Nat) (rs : List Regex) : ∀ (pos : Nat),
    (∀ r, r ∈ rs → matchEnd inp r pos = none) →
    (∀ u, inp[pos]? = some u → isLineTerminator u = true) →
    firstAlt inp rs pos = none := by
  induction rs with
  | nil =>
    intro pos _ hu
    simp only [firstAlt]
    split
    · rename_i u h; simp [hu u h]
    · rfl
  | cons r0 rest ih =>
    intro pos hnone hu
    simp only [firstAlt, hnone r0 (by simp)]
    rw [ih pos (fun r hr => hnone r (by simp [hr])) hu]
    rfl

theorem groupIndex_groupfree (rs : List Regex) : ∀ (b i : Nat),
    (∀ r, r ∈ rs → ngroups r = 0) → i ≤ rs.length → groupIndex rs b i = b + i := by
  induction rs with
  | nil => intro b i _ hi; simp at hi; subst hi; simp [groupIndex]
  | cons r0 rest ih =>
    intro b i hfree hi
    cases i with
    | zero => simp [groupIndex]
    | succ i =>
      simp only [groupIndex]
      rw [ih _ i (fun r hr => hfree r (by simp [hr])) (by simpa using hi), hfree r0 (by simp)]
      omega

/-- The whole-pattern attempt at offset `pos`, for the composite of well-formed entries. -/
theorem matchAt_composite (inp : List Nat) (rs : List Regex) (pos : Nat)
    (hpos : pos ≤ inp.length) :
    (firstAlt inp rs pos = none →
      matchAt inp (mkAlt (rs.map Regex.group ++ [.group .any])) pos = none) ∧
    (∀ i e, firstAlt inp rs pos = some (i, e) →
      ∃ cs, matchAt inp (mkAlt (rs.map Regex.group ++ [.group .any])) pos = some (e, cs) ∧
        firstMatched cs = groupIndex rs 1 i ∧
        cs[groupIndex rs 1 i]? = some (some (pos, e)) ∧ pos ≤ e ∧ e ≤ inp.length ∧
        cs[0]? = some (some (pos, e))) := by
  unfold matchAt
  apply matchRe_composite inp rs 1 pos _ (le_refl _) hpos
  · simp; omega
  · intro j _ hj
    simp only [List.length_replicate] at hj
    simp [List.getElem?_replicate, hj]

/-! ### Search, `next` and `peek` inside a session -/

theorem searchFrom_hit (inp : List Nat) (re : Regex) (n pos : Nat) (x : Nat × Caps)
    (h : matchAt inp re pos = some x) : searchFrom inp re (n + 1) pos = some x := by
  simp [searchFrom, h]

/-- In a session the search at a cursor where `firstAlt` finds an alternative
returns that alternative's match, starting at the cursor. -/
theorem search_hit (entries : List (List Nat × Int)) (rs : List Regex) (text : List Nat)
    (s : State) (hs : Session entries text s) (hwf : WellFormed entries rs)
    (hcur : s.cur ≤ text.length) (i e : Nat) (hf : firstAlt text rs s.cur = some (i, e)) :
    ∃ cs, search s = some (e, cs) ∧ firstMatched cs = groupIndex rs 1 i ∧
      cs[groupIndex rs 1 i]? = some (some (s.cur, e)) ∧ s.cur ≤ e ∧ e ≤ text.length ∧
      cs[0]? = some (some (s.cur, e)) := by
  obtain ⟨hstr, hpat, _⟩ := hs
  rw [parse_entries entries rs hwf] at hpat
  obtain ⟨cs, h1, h2⟩ := (matchAt_composite text rs s.cur hcur).2 i e hf
  refine ⟨cs, ?_, h2⟩
  unfold search regex_search
  rw [hpat, hstr]
  simp only
  have hfuel : text.length + 1 - s.cur = (text.length - s.cur) + 1 := by omega
  rw [hfuel]
  exact searchFrom_hit _ _ _ _ _ h1

/-- In a session the search at the end of input fails when no alternative
matches the empty string there. -/
theorem search_end (entries : List (List Nat × Int)) (rs : List Regex) (text : List Nat)
    (s : State) (hs : Session entries text s) (hwf : WellFormed entries rs)
    (hcur : s.cur = text.length) (hf : firstAlt text rs s.cur = none) :
    search s = none := by
  obtain ⟨hstr, hpat, _⟩ := hs
  rw [parse_entries entries rs hwf] at hpat
  have h1 := (matchAt_composite text rs s.cur (by omega)).1 hf
  unfold search regex_search
  rw [hpat, hstr]
  simp only
  have hfuel : text.length + 1 - s.cur = 1 := by omega
  rw [hfuel]
  simp [searchFrom, h1]

theorem sub_first_eq (str : List Nat) (cs : Caps) (i a b : Nat)
    (h : cs[i]? = some (some (a, b))) : sub_first str cs i = a := by
  simp [sub_first, h]

theorem sub_second_eq (str : List Nat) (cs : Caps) (i a b : Nat)
    (h : cs[i]? = some (some (a, b))) : sub_second str cs i = b := by
  simp [sub_second, h]

/-- Member `next` when the search matched group `g` with span `[a, e)` and the
type map has an entry for it. -/
theorem next_of_search (s : State) (e : Nat) (cs : Caps) (g a : Nat) (t : Int)
    (hsearch : search s = some (e, cs)) (hg : firstMatched cs = g) (hg0 : g ≠ 0)
    (hspan : cs[g]? = some (some (a, e))) (ht : s.type_map[g]? = some t) :
    next s = ⟨.ok t,
      { s with match_ := some cs,
               line := if t = NEWLINE then s.line + 1 else s.line,
               tok := ⟨a, e, t, if t = NEWLINE then s.line + 1 else s.line⟩,
               prev := s.cur, cur := e }, []⟩ := by
  unfold next
  rw [hsearch]
  simp only [hg, hg0, if_false, ht, sub_first_eq _ _ _ _ _ hspan, sub_second_eq _ _ _ _ _ hspan]

/-- Member `peek` under the same conditions. -/
theorem peek_of_search (s : State) (e : Nat) (cs : Caps) (g a : Nat) (t : Int)
    (hsearch : search s = some (e, cs)) (hg : firstMatched cs = g) (hg0 : g ≠ 0)
    (hspan : cs[g]? = some (some (a, e))) (ht : s.type_map[g]? = some t) :
    peek s = ⟨.ok t, { s with match_ := some cs, tok := ⟨a, e, t, s.line⟩ }, []⟩ := by
  unfold peek
  rw [hsearch]
  simp only [hg, hg0, if_false, ht, sub_first_eq _ _ _ _ _ hspan, sub_second_eq _ _ _ _ _ hspan]

/-- The type map of a session at the group of alternative `i`, for patterns
without capture groups: the registered type code, or `ERROR` for the fallback. -/
theorem type_map_entry (entries : List (List Nat × Int)) (rs : List Regex) (text : List Nat)
    (s : State) (hs : Session entries text s) (hwf : WellFormed entries rs)
    (hfree : ∀ r, r ∈ rs → ngroups r = 0) (i : Nat) (hi : i ≤ rs.length) :
    s.type_map[groupIndex rs 1 i]? = some (((entries.map Prod.snd)[i]?).getD ERROR) := by
  have hlen : entries.length = rs.length := List.Forall₂.length_eq hwf
  rw [groupIndex_groupfree rs 1 i hfree hi, hs.2.2]
  have h1 : 1 + i = i + 1 := by omega
  rw [h1, List.cons_append, List.getElem?_cons_succ]
  by_cases hlt : i < rs.length
  · rw [List.getElem?_append_left (by simpa [hlen] using hlt)]
    rw [List.getElem?_eq_getElem (by simpa [hlen] using hlt)]
    simp
  · have hieq : i = rs.length := by omega
    rw [List.getElem?_append_right (by simp [hlen, hieq])]
    have hnone : entries[rs.length]? = none := List.getElem?_eq_none (by omega)
    simp [hlen, hieq, hnone]

theorem peek_state (s : State) :
    ∃ tok m, (peek s).st = { s with tok := tok, match_ := m } := by
  unfold peek not_matched reset_type
  cases h : search s with
  | none =>
    dsimp only
    split
    · exact ⟨_, _, rfl⟩
    · split
      · exact ⟨_, _, rfl⟩
      · split <;> exact ⟨_, _, rfl⟩
  | some r =>
    dsimp only
    split
    · exact ⟨_, _, rfl⟩
    · split <;> exact ⟨_, _, rfl⟩

theorem next_state (s : State) :
    ∃ tok m line prev cur,
      (next s).st = { s with tok := tok, match_ := m, line := line, prev := prev, cur := cur } := by
  unfold next not_matched reset_type
  cases h : search s with
  | none =>
    dsimp only
    split
    · exact ⟨_, _, _, _, _, rfl⟩
    · split
      · exact ⟨_, _, _, _, _, rfl⟩
      · split <;> exact ⟨_, _, _, _, _, rfl⟩
  | some r =>
    dsimp only
    split
    · exact ⟨_, _, _, _, _, rfl⟩
    · split <;> exact ⟨_, _, _, _, _, rfl⟩

/-- The calls `next()` and `peek()` keep an engine inside its session. -/
theorem session_step (entries : List (List Nat × Int)) (text : List Nat) (s : State)
    (hs : Session entries text s) :
    Session entries text (next s).st ∧ Session entries text (peek s).st := by
  obtain ⟨tok, m, line, prev, cur, hn⟩ := next_state s
  obtain ⟨tok2, m2, hp⟩ := peek_state s
  rw [hn, hp]
  exact ⟨⟨hs.1, hs.2.1, hs.2.2⟩, ⟨hs.1, hs.2.1, hs.2.2⟩⟩

/-! ### C4: the end-to-end example -/

/-- C4. With the builtins IDENTIFIER, SPACE, NUMBER_LITERAL registered in that
order and input "foo 42", successive `next()` calls return IDENTIFIER with span
0..3, SPACE with span 3..4, NUMBER_LITERAL with span 4..6, all on line 1, and
then ERROR with the cursor at the end of input (offset 6) and no handler call. -/
theorem foo42_tokens :
    (assign foo42_registry (lit "foo 42")).res = .ok () ∧
    (next foo42).res = .ok IDENTIFIER ∧
    (next foo42).st.tok = ⟨0, 3, IDENTIFIER, 1⟩ ∧
    span foo42.str (next foo42).st.tok = lit "foo" ∧
    (next (next foo42).st).res = .ok SPACE ∧
    (next (next foo42).st).st.tok = ⟨3, 4, SPACE, 1⟩ ∧
    span foo42.str (next (next foo42).st).st.tok = lit " " ∧
    (next (next (next foo42).st).st).res = .ok NUMBER_LITERAL ∧
    (next (next (next foo42).st).st).st.tok = ⟨4, 6, NUMBER_LITERAL, 1⟩ ∧
    span foo42.str (next (next (next foo42).st).st).st.tok = lit "42" ∧
    (next (next (next (next foo42).st).st).st).res = .ok ERROR ∧
    (next (next (next (next foo42).st).st).st).st.cur = 6 ∧
    (next (next (next (next foo42).st).st).st).st.str.length = 6 ∧
    (next (next (next (next foo42).st).st).st).calls = [] := by
  decide

/-! ### C6, C7: the line counter -/

theorem assign_line (s : State) (text : List Nat) : (assign s text).st.line = s.line := by
  unfold assign make_pattern
  dsimp only
  cases h : parseRegex (composite s.pattern_list) <;> rfl

theorem next_line_step (s : State) :
    (next s).st.line = s.line + (if isNewline (next s).res then 1 else 0) := by
  unfold next not_matched reset_type
  cases h : search s with
  | none =>
    dsimp only
    split
    · simp [isNewline, ERROR, NEWLINE, builtin_token_type.code]
    · split
      · simp [isNewline]
      · split
        · simp [isNewline]
        · simp [isNewline, ERROR, NEWLINE, builtin_token_type.code]
  | some r =>
    dsimp only
    split
    · simp [isNewline]
    · split
      · simp [isNewline]
      · rename_i t _
        by_cases ht : t = NEWLINE
        · simp [isNewline, ht]
        · simp [isNewline, ht]

/-- C6. A `next()` call adds exactly 1 to the line counter when it returns the
type code NEWLINE, whatever the span of the token, and leaves the counter alone
otherwise (also when it raises); hence after `n` calls from any state the
counter has grown by the number of calls that returned NEWLINE, and from the
state right after `assign` on a fresh engine, where the counter is 1, it is
1 plus that number. -/
theorem next_line_counter (s : State) (n : Nat) (entries : List (List Nat × Int))
    (text : List Nat) :
    ((next s).res = .ok NEWLINE → (next s).st.line = s.line + 1) ∧
    ((next s).res ≠ .ok NEWLINE → (next s).st.line = s.line) ∧
    (next_n n s).2.line = s.line + ((next_n n s).1.filter isNewline).length ∧
    (next_n n (start entries text)).2.line =
      1 + ((next_n n (start entries text)).1.filter isNewline).length := by
  have hstep := next_line_step
  have hn : ∀ (n : Nat) (s : State),
      (next_n n s).2.line = s.line + ((next_n n s).1.filter isNewline).length := by
    intro n
    induction n with
    | zero => intro s; simp [next_n]
    | succ n ih =>
      intro s
      simp only [next_n]
      rw [ih, hstep s, List.filter_cons]
      split <;> simp
      omega
  have hstart : (start entries text).line = 1 := by
    rw [start, assign_line]
    exact (registered_spec entries).2.2.2.1
  refine ⟨?_, ?_, hn n s, ?_⟩
  · intro h
    rw [hstep s, h]
    simp [isNewline]
  · intro h
    rw [hstep s]
    have : isNewline (next s).res = false := by
      cases hr : (next s).res with
      | error e => rfl
      | ok t =>
        simp only [isNewline, beq_eq_false_iff_ne, ne_eq]
        intro ht
        exact h (by rw [hr, ht])
    simp [this]
  · rw [hn n (start entries text), hstart]

/-- C7 (evaluation). With only the NEWLINE builtin registered and input "\n",
the line counter is 1 before the first `next()`; the call returns NEWLINE and
records line 2 in the token, the counter after the increment, while `peek()`
in the same state records line 1 for the same token. -/
theorem next_newline_token_line :
    newline_only.line = 1 ∧ (next newline_only).res = .ok NEWLINE ∧
    (next newline_only).st.tok = ⟨0, 1, NEWLINE, 2⟩ ∧
    (peek newline_only).res = .ok NEWLINE ∧
    (peek newline_only).st.tok = ⟨0, 1, NEWLINE, 1⟩ := by
  decide

/-! ### C8, C9, C10: `peek` and `expect` do not consume -/

/-- C8. For every state, `peek()` leaves the cursor, the previous-position
bookmark, the line counter, the input, the registry (pattern list, type map,
display names, compiled pattern, initialization flag) and the handler
unchanged, also when it raises: the state after the call is the state before
it with at most the current-token record and the match scratch replaced. -/
theorem peek_frame (s : State) :
    (∃ tok m, (peek s).st = { s with tok := tok, match_ := m }) ∧
    (peek s).st.cur = s.cur ∧ (peek s).st.prev = s.prev ∧ (peek s).st.line = s.line ∧
    (peek s).st.str = s.str ∧ (peek s).st.pattern_list = s.pattern_list ∧
    (peek s).st.type_map = s.type_map ∧
    (peek s).st.token_type_string_list = s.token_type_string_list ∧
    (peek s).st.pattern = s.pattern ∧ (peek s).st.status = s.status := by
  obtain ⟨tok, m, h⟩ := peek_state s
  refine ⟨⟨tok, m, h⟩, ?_⟩
  rw [h]
  simp

theorem search_peek (s : State) : search (peek s).st = search s := by
  obtain ⟨tok, m, h⟩ := peek_state s
  rw [h]
  rfl

theorem peek_again (s : State) (t : Int) (h : (peek s).res = .ok t) :
    (peek (peek s).st).res = .ok t ∧ (peek (peek s).st).st = (peek s).st ∧
    (peek (peek s).st).calls = (peek s).calls := by
  have hs := search_peek s
  revert h hs
  unfold peek not_matched reset_type
  cases h : search s with
  | none =>
    dsimp only
    split
    · intro h1 h2
      simp only [h2]
      simp_all
    · split
      · intro h1 h2; simp at h1
      · split
        · intro h1 h2; simp at h1
        · intro h1 h2
          simp only [h2]
          simp_all
  | some r =>
    dsimp only
    split
    · intro h1; simp at h1
    · split
      · intro h1; simp at h1
      · intro h1 h2
        simp only [h2]
        simp_all

/-- C9. For every state in which `peek()` returns normally with type code `t`,
a second `peek()` with no call in between returns `t` again and leaves exactly
the state the first call left (same current token, same cursor, same
everything), making the same handler calls. -/
theorem peek_idempotent (s : State) (t : Int) (h : (peek s).res = .ok t) :
    (peek (peek s).st).res = .ok t ∧ (peek (peek s).st).st = (peek s).st ∧
    (peek (peek s).st).st.tok = (peek s).st.tok ∧ (peek (peek s).st).st.cur = s.cur ∧
    (peek (peek s).st).calls = (peek s).calls := by
  obtain ⟨h1, h2, h3⟩ := peek_again s t h
  refine ⟨h1, h2, by rw [h2], ?_, h3⟩
  obtain ⟨tok, m, hst⟩ := peek_state s
  rw [h2, hst]

/-- Witness of C9 on the end-to-end example. -/
theorem peek_idempotent_witness :
    (peek foo42).res = .ok IDENTIFIER ∧
    ((peek (peek foo42).st).res = .ok IDENTIFIER ∧ (peek (peek foo42).st).st = (peek foo42).st ∧
      (peek (peek foo42).st).st.tok = (peek foo42).st.tok ∧
      (peek (peek foo42).st).st.cur = foo42.cur ∧
      (peek (peek foo42).st).calls = (peek foo42).calls) :=
  ⟨by decide, peek_idempotent foo42 IDENTIFIER (by decide)⟩

/-- C10. For every state whose error handler returns, and every expected type
code `t`: `expect(t)` leaves the cursor, the previous-position bookmark and the
line counter unchanged; it returns true exactly when the `peek()` it makes
returns `t`, and then calls the handler no more than `peek()` did; it returns
false exactly when that `peek()` returns another type code, and then it has
called the handler with the unexpected-token signal and the cursor position. -/
theorem expect_non_consuming (s : State) (t : Int)
    (hret : ∀ msg pos, ∃ v, s.error_handle msg pos = .ok v) :
    (expect s t).st.cur = s.cur ∧ (expect s t).st.prev = s.prev ∧
    (expect s t).st.line = s.line ∧
    ((expect s t).res = .ok true ↔ (peek s).res = .ok t) ∧
    ((expect s t).res = .ok false ↔ ∃ ty, ty ≠ t ∧ (peek s).res = .ok ty) ∧
    ((expect s t).res = .ok true → (expect s t).calls = (peek s).calls) ∧
    ((expect s t).res = .ok false →
      (expect s t).calls = (peek s).calls ++ [(.TOKEN_UNEXPECTED, s.cur)]) := by
  obtain ⟨tok, m, hst⟩ := peek_state s
  have hcur : (peek s).st.cur = s.cur := by rw [hst]
  have hprev : (peek s).st.prev = s.prev := by rw [hst]
  have hline : (peek s).st.line = s.line := by rw [hst]
  have hh : (peek s).st.error_handle = s.error_handle := by rw [hst]
  obtain ⟨v, hv⟩ := hret .TOKEN_UNEXPECTED s.cur
  cases hp : (peek s).res with
  | error e =>
    simp [expect, hp, hcur, hprev, hline]
  | ok ty =>
    by_cases hty : ty = t
    · subst hty
      simp [expect, hp, hcur, hprev, hline]
    · have hty2 : ¬ t = ty := fun h => hty h.symm
      simp [expect, hp, hh, hv, hcur, hprev, hline, hty, hty2]

/-- Witness of C10: the end-to-end example with a handler that returns 1;
`expect(SPACE)` at the start finds IDENTIFIER, reports it and returns false. -/
theorem expect_non_consuming_witness :
    (∀ msg pos, ∃ v, (lenient foo42).error_handle msg pos = .ok v) ∧
    (expect (lenient foo42) SPACE).res = .ok false ∧
    (expect (lenient foo42) SPACE).st.cur = (lenient foo42).cur ∧
    (expect (lenient foo42) SPACE).calls = [(.TOKEN_UNEXPECTED, 0)] :=
  ⟨fun _ _ => ⟨1, rfl⟩, by decide,
    (expect_non_consuming (lenient foo42) SPACE (fun _ _ => ⟨1, rfl⟩)).1, by decide⟩

/-! ### C2: the first registered pattern wins -/

theorem call_at_end (entries : List (List Nat × Int)) (rs : List Regex) (text : List Nat)
    (s : State) (hs : Session entries text s) (hwf : WellFormed entries rs)
    (hend : s.cur = text.length) (hnull : ∀ r, r ∈ rs → matchEnd text r text.length = none)
    (b : Bool) :
    call b s = ⟨.ok ERROR, { reset_type s with match_ := none }, []⟩ := by
  have hf : firstAlt text rs s.cur = none := by
    apply firstAlt_none
    · intro r hr; rw [hend]; exact hnull r hr
    · intro u hu
      rw [hend, List.getElem?_eq_none (le_refl _)] at hu
      cases hu
  have hsearch := search_end entries rs text s hs hwf hend hf
  have hlen : s.cur = s.str.length := by rw [hs.1]; exact hend
  cases b with
  | true =>
    simp only [call, if_true]
    unfold next
    rw [hsearch]
    simp [not_matched, reset_type, hlen]
  | false =>
    simp only [call, Bool.false_eq_true, if_false]
    unfold peek
    rw [hsearch]
    simp [not_matched, reset_type, hlen]

/-- The outcome of `next()` does not depend on the match scratch nor on the
type of the current token. -/
theorem next_congr_same (s : State) (ty : Int) (m : Option Caps) :
    next { s with tok := { s.tok with type := ty }, match_ := m } = next s := by
  have hs : search { s with tok := { s.tok with type := ty }, match_ := m } = search s := rfl
  unfold next
  rw [hs]
  cases h : search s with
  | none => simp only [not_matched, reset_type]
  | some r => simp only [reset_type]

/-- When the search succeeds and the type map has an entry for the group that
matched, the outcome of `next()` does not depend on the current token at all. -/
theorem next_congr_hit (s : State) (tok : token) (m : Option Caps) (e : Nat) (m0 : Caps)
    (t : Int) (h : search s = some (e, m0)) (h0 : firstMatched m0 ≠ 0)
    (ht : s.type_map[firstMatched m0]? = some t) :
    next { s with tok := tok, match_ := m } = next s := by
  have hs : search { s with tok := tok, match_ := m } = search s := rfl
  unfold next
  rw [hs, h]
  simp only [h0, if_false, ht]

/-- After a `peek()` that returned, `next()` does what it does without it. -/
theorem next_peek (s : State) (ty : Int) (hp : (peek s).res = .ok ty) :
    next (peek s).st = next s := by
  revert hp
  unfold peek
  cases h : search s with
  | none =>
    simp only [not_matched, reset_type]
    intro _
    split
    · exact next_congr_same s ERROR none
    · split
      · exact next_congr_same s ERROR none
      · split
        · exact next_congr_same s ERROR none
        · exact next_congr_same s ERROR none
  | some r =>
    simp only [reset_type]
    split
    · intro hp; cases hp
    · rename_i h0
      split
      · intro hp; cases hp
      · rename_i t ht
        intro _
        exact next_congr_hit s _ _ r.1 r.2 t h h0 ht

theorem next_res_of_peek (s : State) (t : Int) (h : (peek s).res = .ok t) :
    (next s).res = .ok t := by
  revert h
  unfold peek next not_matched reset_type
  cases h : search s with
  | none =>
    dsimp only
    split
    · exact id
    · split
      · exact id
      · split
        · exact id
        · exact id
  | some r =>
    dsimp only
    split
    · exact id
    · split
      · exact id
      · exact id

/-! ### Captures stay inside the searched range -/

theorem CapsIn.set_none {lo hi : Nat} {cs : Caps} (h : CapsIn lo hi cs) (i : Nat) :
    CapsIn lo hi (cs.set i none) := by
  intro j a b hj
  by_cases hij : i = j
  · subst hij
    by_cases hlt : i < cs.length
    · rw [List.getElem?_set_self (by simpa using hlt)] at hj
      cases hj
    · rw [List.getElem?_eq_none (by simpa using hlt)] at hj
      cases hj
  · rw [List.getElem?_set_ne hij] at hj
    exact h j a b hj

theorem CapsIn.set_some {lo hi : Nat} {cs : Caps} (h : CapsIn lo hi cs) (i a b : Nat)
    (h1 : lo ≤ a) (h2 : a ≤ b) (h3 : b ≤ hi) : CapsIn lo hi (cs.set i (some (a, b))) := by
  intro j a2 b2 hj
  by_cases hij : i = j
  · subst hij
    by_cases hlt : i < cs.length
    · rw [List.getElem?_set_self (by simpa using hlt)] at hj
      simp only [Option.some.injEq, Prod.mk.injEq] at hj
      obtain ⟨rfl, rfl⟩ := hj
      exact ⟨h1, h2, h3⟩
    · rw [List.getElem?_eq_none (by simpa using hlt)] at hj
      cases hj
  · rw [List.getElem?_set_ne hij] at hj
    exact h j a2 b2 hj

theorem CapsIn.mono {lo lo2 hi : Nat} {cs : Caps} (h : CapsIn lo hi cs) (hle : lo2 ≤ lo) :
    CapsIn lo2 hi cs := by
  intro j a b hj
  have := h j a b hj
  omega

theorem CapsIn.replicate (lo hi n : Nat) : CapsIn lo hi (List.replicate n none) := by
  intro j a b hj
  by_cases hlt : j < n
  · simp [List.getElem?_replicate, hlt] at hj
  · simp [List.getElem?_replicate, hlt] at hj

theorem starLoop_bounds (inp : List Nat) (lo : Nat) (Post : Nat × Caps → Prop)
    (mr : Nat → Caps → Cont → MRes) (greedy : Bool)
    (hmr : ∀ (Q : Nat × Caps → Prop) pos caps (k : Cont), lo ≤ pos → pos ≤ inp.length →
      CapsIn lo inp.length caps →
      (∀ p cs, CapsIn lo inp.length cs → pos ≤ p → p ≤ inp.length →
        ∀ x, k p cs = some x → Q x) →
      ∀ x, mr pos caps k = some x → Q x)
    (fuel : Nat) :
    ∀ pos caps (k : Cont), lo ≤ pos → pos ≤ inp.length → CapsIn lo inp.length caps →
      (∀ p cs, CapsIn lo inp.length cs → pos ≤ p → p ≤ inp.length →
        ∀ x, k p cs = some x → Post x) →
      ∀ x, starLoop mr greedy fuel pos caps k = some x → Post x := by
  induction fuel with
  | zero =>
    intro pos caps k hlo hpos hcaps hk x hx
    simp only [starLoop] at hx
    exact hk pos caps hcaps (le_refl _) hpos x hx
  | succ n ih =>
    intro pos caps k hlo hpos hcaps hk x hx
    have hiter : ∀ x, mr pos caps
        (fun p cs => if pos < p then starLoop mr greedy n p cs k else none) = some x →
        Post x := by
      apply hmr Post pos _ _ hlo hpos hcaps
      intro p cs hc hp hpl x hx
      by_cases hlt : pos < p
      · simp only [hlt, if_true] at hx
        refine ih p cs k (by omega) hpl hc ?_ x hx
        intro p2 c2 hc2 hp2 hpl2 x2 hx2
        exact hk p2 c2 hc2 (by omega) hpl2 x2 hx2
      · simp only [hlt, if_false] at hx; cases hx
    have hexit : ∀ x, k pos caps = some x → Post x :=
      fun x hx => hk pos caps hcaps (le_refl _) hpos x hx
    cases greedy with
    | true =>
      simp only [starLoop, if_true] at hx
      rcases firstOf_some _ _ _ hx with h | h
      · exact hiter x h
      · exact hexit x h
    | false =>
      simp only [starLoop, Bool.false_eq_true, if_false] at hx
      rcases firstOf_some _ _ _ hx with h | h
      · exact hexit x h
      · exact hiter x h

/-- Whatever the pattern, the matcher hands its continuation an offset between
the current one and the end of the input, and captures inside `[lo, length]`
when it started with such captures at an offset `≥ lo`. -/
theorem matchRe_bounds (inp : List Nat) (lo : Nat) (r : Regex) :
    ∀ (Post : Nat × Caps → Prop) (base pos : Nat) (caps : Caps) (k : Cont),
      lo ≤ pos → pos ≤ inp.length → CapsIn lo inp.length caps →
      (∀ p cs, CapsIn lo inp.length cs → pos ≤ p → p ≤ inp.length →
        ∀ x, k p cs = some x → Post x) →
      ∀ x, matchRe inp r base pos caps k = some x → Post x := by
  induction r with
  | empty =>
    intro Post base pos caps k hlo hpos hcaps hk x hx
    simp only [matchRe] at hx
    exact hk pos caps hcaps (le_refl _) hpos x hx
  | char a =>
    intro Post base pos caps k hlo hpos hcaps hk x hx
    simp only [matchRe] at hx
    split at hx
    · rename_i hc
      have hlt : pos < inp.length := by
        by_contra hge
        rw [List.getElem?_eq_none (by omega)] at hc
        cases hc
      exact hk _ caps hcaps (by omega) (by omega) x hx
    · cases hx
  | any =>
    intro Post base pos caps k hlo hpos hcaps hk x hx
    simp only [matchRe] at hx
    split at hx
    · rename_i u hc
      have hlt : pos < inp.length := by
        by_contra hge
        rw [List.getElem?_eq_none (by omega)] at hc
        cases hc
      split at hx
      · cases hx
      · exact hk _ caps hcaps (by omega) (by omega) x hx
    · cases hx
  | cls neg items =>
    intro Post base pos caps k hlo hpos hcaps hk x hx
    simp only [matchRe] at hx
    split at hx
    · rename_i u hc
      have hlt : pos < inp.length := by
        by_contra hge
        rw [List.getElem?_eq_none (by omega)] at hc
        cases hc
      split at hx
      · exact hk _ caps hcaps (by omega) (by omega) x hx
      · cases hx
    · cases hx
  | seq a b iha ihb =>
    intro Post base pos caps k hlo hpos hcaps hk x hx
    simp only [matchRe] at hx
    refine iha Post base pos caps _ hlo hpos hcaps ?_ x hx
    intro p cs hc hp hpl x2 hx2
    refine ihb Post _ p cs k (by omega) hpl hc ?_ x2 hx2
    intro p2 c2 hc2 hp2 hpl2 x3 hx3
    exact hk p2 c2 hc2 (by omega) hpl2 x3 hx3
  | alt a b iha ihb =>
    intro Post base pos caps k hlo hpos hcaps hk x hx
    simp only [matchRe] at hx
    rcases firstOf_some _ _ _ hx with h | h
    · exact iha Post base pos caps k hlo hpos hcaps hk x h
    · exact ihb Post _ pos caps k hlo hpos hcaps hk x h
  | star greedy r ih =>
    intro Post base pos caps k hlo hpos hcaps hk x hx
    simp only [matchRe] at hx
    exact starLoop_bounds inp lo Post _ greedy
      (fun Q pos caps k hlo hpos hcaps hk x hx => ih Q base pos caps k hlo hpos hcaps hk x hx)
      _ pos caps k hlo hpos hcaps hk x hx
  | plus greedy r ih =>
    intro Post base pos caps k hlo hpos hcaps hk x hx
    simp only [matchRe] at hx
    refine ih Post base pos _ _ hlo hpos hcaps ?_ x hx
    intro p cs hc hp hpl x2 hx2
    refine starLoop_bounds inp lo Post _ greedy
      (fun Q pos caps k hlo hpos hcaps hk x hx => ih Q base pos caps k hlo hpos hcaps hk x hx)
      _ p cs k (by omega) hpl hc ?_ x2 hx2
    intro p2 c2 hc2 hp2 hpl2 x3 hx3
    exact hk p2 c2 hc2 (by omega) hpl2 x3 hx3
  | opt greedy r ih =>
    intro Post base pos caps k hlo hpos hcaps hk x hx
    have hiter : ∀ x, matchRe inp r base pos caps
        (fun p cs => if pos < p then k p cs else none) = some x → Post x := by
      intro x hx
      refine ih Post base pos _ _ hlo hpos hcaps ?_ x hx
      intro p cs hc hp hpl x2 hx2
      by_cases hlt : pos < p
      · simp only [hlt, if_true] at hx2
        exact hk p cs hc hp hpl x2 hx2
      · simp only [hlt, if_false] at hx2; cases hx2
    have hexit : ∀ x, k pos caps = some x → Post x :=
      fun x hx => hk pos caps hcaps (le_refl _) hpos x hx
    cases greedy with
    | true =>
      simp only [matchRe, if_true] at hx
      rcases firstOf_some _ _ _ hx with h | h
      · exact hiter x h
      · exact hexit x h
    | false =>
      simp only [matchRe, Bool.false_eq_true, if_false] at hx
      rcases firstOf_some _ _ _ hx with h | h
      · exact hexit x h
      · exact hiter x h
  | group r ih =>
    intro Post base pos caps k hlo hpos hcaps hk x hx
    simp only [matchRe] at hx
    refine ih Post (base + 1) pos caps _ hlo hpos hcaps ?_ x hx
    intro p cs hc hp hpl x2 hx2
    exact hk p _ (hc.set_some base pos p hlo hp hpl) hp hpl x2 hx2
  | look neg r ih =>
    intro Post base pos caps k hlo hpos hcaps hk x hx
    simp only [matchRe] at hx
    cases hin : matchRe inp r base pos caps (fun p cs => some (p, cs)) with
    | none =>
      rw [hin] at hx
      cases neg with
      | true =>
        simp only [if_true] at hx
        exact hk pos caps hcaps (le_refl _) hpos x hx
      | false => simp at hx
    | some a =>
      rw [hin] at hx
      cases neg with
      | true => simp at hx
      | false =>
        simp only [Bool.false_eq_true, if_false] at hx
        have hfr : CapsIn lo inp.length a.2 := by
          refine ih (fun y => CapsIn lo inp.length y.2) base pos caps _ hlo hpos hcaps ?_ a hin
          intro p cs hc _ _ y hy
          cases hy
          exact hc
        exact hk pos a.2 hfr (le_refl _) hpos x hx

theorem matchAt_bounds (inp : List Nat) (re : Regex) (pos : Nat) (hpos : pos ≤ inp.length)
    (x : Nat × Caps) (hx : matchAt inp re pos = some x) :
    pos ≤ x.1 ∧ x.1 ≤ inp.length ∧ CapsIn pos inp.length x.2 := by
  unfold matchAt at hx
  refine matchRe_bounds inp pos re
    (fun x => pos ≤ x.1 ∧ x.1 ≤ inp.length ∧ CapsIn pos inp.length x.2) 1 pos _ _
    (le_refl _) hpos (CapsIn.replicate _ _ _) ?_ x hx
  intro p cs hc hp hpl y hy
  simp only [accept, Option.some.injEq] at hy
  subst hy
  exact ⟨hp, hpl, hc.set_some 0 pos p (le_refl _) hp hpl⟩

theorem searchFrom_some (inp : List Nat) (re : Regex) (n : Nat) : ∀ (pos : Nat) (x : Nat × Caps),
    searchFrom inp re n pos = some x →
    ∃ start, pos ≤ start ∧ start < pos + n ∧ matchAt inp re start = some x := by
  induction n with
  | zero => intro pos x h; simp [searchFrom] at h
  | succ n ih =>
    intro pos x h
    simp only [searchFrom] at h
    cases hm : matchAt inp re pos with
    | some y =>
      rw [hm] at h
      simp only [Option.some.injEq] at h
      subst h
      exact ⟨pos, le_refl _, by omega, hm⟩
    | none =>
      rw [hm] at h
      obtain ⟨start, h1, h2, h3⟩ := ih (pos + 1) x h
      exact ⟨start, by omega, by omega, h3⟩

/-- A successful search of `next()`/`peek()`, in any state: the match starts at
an offset `start` between the cursor and the end of the input, and the end
offset and every capture lie between `start` and the end of the input. -/
theorem search_some (s : State) (x : Nat × Caps) (h : search s = some x) :
    ∃ re start, s.pattern = some re ∧ s.cur ≤ start ∧ start ≤ s.str.length ∧
      matchAt s.str re start = some x ∧ start ≤ x.1 ∧ x.1 ≤ s.str.length ∧
      CapsIn start s.str.length x.2 := by
  unfold search at h
  cases hp : s.pattern with
  | none => rw [hp] at h; cases h
  | some re =>
    rw [hp] at h
    simp only [regex_search] at h
    obtain ⟨start, h1, h2, h3⟩ := searchFrom_some _ _ _ _ _ h
    have hle : start ≤ s.str.length := by omega
    obtain ⟨b1, b2, b3⟩ := matchAt_bounds _ _ _ hle _ h3
    exact ⟨re, start, rfl, h1, hle, h3, b1, b2, b3⟩

theorem firstMatchedFrom_some : ∀ (l : Caps) (i g : Nat), firstMatchedFrom l i = g → g ≠ 0 →
    i ≠ 0 → i ≤ g ∧ ∃ v, l[g - i]? = some (some v) := by
  intro l
  induction l with
  | nil => intro i g h hg _; simp [firstMatchedFrom] at h; omega
  | cons a rest ih =>
    intro i g h hg hi
    cases a with
    | some v =>
      simp only [firstMatchedFrom] at h
      subst h
      exact ⟨le_refl _, v, by simp⟩
    | none =>
      simp only [firstMatchedFrom] at h
      obtain ⟨h1, v, hv⟩ := ih (i + 1) g h hg (by omega)
      refine ⟨by omega, v, ?_⟩
      have : g - i = (g - (i + 1)) + 1 := by omega
      rw [this, List.getElem?_cons_succ]
      exact hv

theorem firstMatched_some (cs : Caps) (g : Nat) (h : firstMatched cs = g) (hg : g ≠ 0) :
    ∃ v, cs[g]? = some (some v) := by
  unfold firstMatched at h
  obtain ⟨h1, v, hv⟩ := firstMatchedFrom_some cs.tail 1 g h hg (by omega)
  refine ⟨v, ?_⟩
  cases cs with
  | nil => simp at hv
  | cons a rest =>
    simp only [List.tail_cons] at hv
    have : g = (g - 1) + 1 := by omega
    rw [this, List.getElem?_cons_succ]
    exact hv

/-- In every state `next()` leaves the cursor at or after its old offset, and
inside the input when it was inside before. -/
theorem next_cur_bounds (s : State) :
    s.cur ≤ (next s).st.cur ∧ (s.cur ≤ s.str.length → (next s).st.cur ≤ s.str.length) := by
  unfold next
  cases h : search s with
  | none =>
    simp only [not_matched, reset_type]
    split
    · exact ⟨le_refl _, id⟩
    · split
      · exact ⟨le_refl _, id⟩
      · split <;> exact ⟨le_refl _, id⟩
  | some x =>
    obtain ⟨re, start, _, h1, h2, _, h4, h5, h6⟩ := search_some s x h
    simp only [reset_type]
    split
    · exact ⟨le_refl _, id⟩
    · rename_i hg
      split
      · exact ⟨le_refl _, id⟩
      · obtain ⟨v, hv⟩ := firstMatched_some x.2 _ rfl hg
        have hb := h6 _ v.1 v.2 hv
        simp only [sub_second, hv]
        exact ⟨by omega, fun _ => hb.2.2⟩

/-! ### C11: `tryget` -/

theorem next_cur_tok (s : State) (t : Int) (h : (next s).res = .ok t) (hs : search s ≠ none) :
    (next s).st.cur = (next s).st.tok.last ∧ (next s).st.tok.type = t := by
  revert h
  unfold next
  cases hx : search s with
  | none => exact absurd hx hs
  | some x =>
    simp only [reset_type]
    split
    · intro h; cases h
    · split
      · intro h; cases h
      · intro h
        simp only [Except.ok.injEq] at h
        exact ⟨rfl, h⟩

/-- A `next()` that returns although the search found nothing returns the
ERROR sentinel and leaves the cursor where it was. -/
theorem next_cur_none (s : State) (t : Int) (h : (next s).res = .ok t) (hs : search s = none) :
    (next s).st.cur = s.cur ∧ t = ERROR := by
  revert h
  unfold next
  rw [hs]
  simp only [not_matched, reset_type]
  split
  · intro h
    simp only [Except.ok.injEq] at h
    exact ⟨rfl, h.symm⟩
  · split
    · intro h; cases h
    · split
      · intro h; cases h
      · intro h
        simp only [Except.ok.injEq] at h
        exact ⟨rfl, h.symm⟩

/-- C11 (counterexample). On the end-to-end example after its three tokens the
cursor is at the end of input, 6; `peek()` returns ERROR there, so
`tryget(ERROR)` returns true, yet no token was matched and the cursor has not
advanced: it is still 6. -/
theorem tryget_counterexample :
    (next_n 3 foo42).2.cur = 6 ∧ search (next_n 3 foo42).2 = none ∧
    (peek (next_n 3 foo42).2).res = .ok ERROR ∧
    (tryget (next_n 3 foo42).2 ERROR).res = .ok true ∧
    (tryget (next_n 3 foo42).2 ERROR).st.cur = 6 := by
  decide

/-- C11 (amended). For every state and every type code `t`: `tryget(t)` returns
true exactly when `peek()` returns `t`, and false exactly when `peek()` returns
another type code. When it returns true, the state it leaves is the state a
single `next()` leaves (which returns `t` too) and the cursor is not before its
old offset: when a token was matched the cursor is at the end of that token,
whose type is `t`; when nothing was matched `t` is the ERROR sentinel and the
cursor is unchanged. When it returns false, the cursor, the bookmark and the
line counter are unchanged and a following `peek()` returns what a `peek()`
before the call returns, with the same current token. -/
theorem tryget_conditional (s : State) (t : Int) :
    ((tryget s t).res = .ok true ↔ (peek s).res = .ok t) ∧
    ((tryget s t).res = .ok false ↔ ∃ ty, ty ≠ t ∧ (peek s).res = .ok ty) ∧
    ((tryget s t).res = .ok true →
      (tryget s t).st = (next s).st ∧ (next s).res = .ok t ∧ s.cur ≤ (tryget s t).st.cur ∧
      (search s ≠ none → (tryget s t).st.cur = (tryget s t).st.tok.last ∧
        (tryget s t).st.tok.type = t) ∧
      (search s = none → (tryget s t).st.cur = s.cur ∧ t = ERROR)) ∧
    ((tryget s t).res = .ok false →
      (tryget s t).st.cur = s.cur ∧ (tryget s t).st.prev = s.prev ∧
      (tryget s t).st.line = s.line ∧
      (peek (tryget s t).st).res = (peek s).res ∧
      (peek (tryget s t).st).st.tok = (peek s).st.tok) := by
  obtain ⟨tok, m, hst⟩ := peek_state s
  have hcur : (peek s).st.cur = s.cur := by rw [hst]
  have hprev : (peek s).st.prev = s.prev := by rw [hst]
  have hline : (peek s).st.line = s.line := by rw [hst]
  cases hp : (peek s).res with
  | error e =>
    simp [tryget, hp]
  | ok ty =>
    have hn := next_res_of_peek s ty hp
    by_cases hty : ty = t
    · subst hty
      have ht : tryget s ty = ⟨.ok true, (next s).st, (peek s).calls ++ (next s).calls⟩ := by
        simp [tryget, hp, next_peek s ty hp, hn]
      rw [ht]
      refine ⟨by simp, by simp, fun _ => ⟨rfl, hn, (next_cur_bounds s).1, ?_, ?_⟩, by simp⟩
      · intro hs
        exact next_cur_tok s ty hn hs
      · intro hs
        exact next_cur_none s ty hn hs
    · have hty2 : ¬ t = ty := fun h => hty h.symm
      have ht : tryget s t = ⟨.ok false, (peek s).st, (peek s).calls⟩ := by
        simp [tryget, hp, hty]
      rw [ht]
      obtain ⟨a1, a2, _⟩ := peek_again s ty hp
      refine ⟨by simp [hty], by simp [hty], by simp, fun _ => ⟨hcur, hprev, hline, ?_, ?_⟩⟩
      · simp only [a1]
      · simp only [a2]

/-! ### C12, C13, C14: the error policy -/

theorem next_not_matched (s : State) (hnone : search s = none) :
    next s = not_matched { reset_type s with match_ := none } := by
  unfold next
  rw [hnone]

theorem peek_not_matched (s : State) (hnone : search s = none) :
    peek s = not_matched { reset_type s with match_ := none } := by
  unfold peek
  rw [hnone]

/-- C12. For every state in which the search fails while the cursor is not at
the end of input and the handler returns the value `v` for REGEX_NOT_MATCH at
the cursor: `next()` calls the handler once, with REGEX_NOT_MATCH and the
cursor; it raises `logic_error("unhandled error")` if `v` is 0 and returns the
ERROR sentinel normally if `v` is not 0. -/
theorem next_error_policy (s : State) (v : Int) (hnone : search s = none)
    (hcur : s.cur ≠ s.str.length) (hv : s.error_handle .REGEX_NOT_MATCH s.cur = .ok v) :
    (next s).calls = [(.REGEX_NOT_MATCH, s.cur)] ∧
    (v = 0 → (next s).res = .error (.logic_error "unhandled error")) ∧
    (v ≠ 0 → (next s).res = .ok ERROR) := by
  rw [next_not_matched s hnone]
  simp only [not_matched, reset_type, hcur, if_false, hv]
  by_cases h0 : v = 0
  · simp [h0]
  · simp [h0]

/-- Witness of C12: no pattern registered, input "\n", cursor 0; once with a
handler that returns 1 and once with a handler that returns 0. -/
theorem next_error_policy_witness :
    search (lenient (start [] (lit "\n"))) = none ∧
    (next (lenient (start [] (lit "\n")))).res = .ok ERROR ∧
    (next (strict (start [] (lit "\n")))).res = .error (.logic_error "unhandled error") :=
  ⟨by decide,
   (next_error_policy (lenient (start [] (lit "\n"))) 1 (by decide) (by decide) rfl).2.2
     (by decide),
   (next_error_policy (strict (start [] (lit "\n"))) 0 (by decide) (by decide) rfl).2.1 rfl⟩

/-- C13 (counterexample). On the end-to-end example with a handler that returns
0, `peek()` returns IDENTIFIER, so `expect(SPACE)` is a mismatch; the handler
is called with TOKEN_UNEXPECTED and returns 0, yet `expect` returns false
instead of raising. -/
theorem expect_ignores_handler_counterexample :
    (strict foo42).error_handle .TOKEN_UNEXPECTED (strict foo42).cur = .ok 0 ∧
    (peek (strict foo42)).res = .ok IDENTIFIER ∧ IDENTIFIER ≠ SPACE ∧
    (expect (strict foo42) SPACE).calls = [(.TOKEN_UNEXPECTED, 0)] ∧
    (expect (strict foo42) SPACE).res = .ok false := by
  decide

/-- C13 (amended). The handler result is honoured for the pattern-not-matched
discriminator only. For every state in which the search fails while the cursor
is not at the end of input and the handler returns 0 for REGEX_NOT_MATCH,
`next()` and `peek()` raise `logic_error("unhandled error")`. For every state
in which `peek()` returns a type code other than `t` and the handler returns
any value `v` (0 or not) for TOKEN_UNEXPECTED, `expect(t)` calls the handler and
returns false. -/
theorem handler_result_honoured (s : State) :
    (search s = none → s.cur ≠ s.str.length →
      s.error_handle .REGEX_NOT_MATCH s.cur = .ok 0 →
      (next s).res = .error (.logic_error "unhandled error") ∧
      (peek s).res = .error (.logic_error "unhandled error")) ∧
    (∀ t ty v, (peek s).res = .ok ty → ty ≠ t →
      s.error_handle .TOKEN_UNEXPECTED s.cur = .ok v →
      (expect s t).res = .ok false ∧
      (expect s t).calls = (peek s).calls ++ [(.TOKEN_UNEXPECTED, s.cur)]) := by
  constructor
  · intro hnone hcur hv
    rw [next_not_matched s hnone, peek_not_matched s hnone]
    simp [not_matched, reset_type, hcur, hv]
  · intro t ty v hp hty hv
    obtain ⟨tok, m, hst⟩ := peek_state s
    have hcur : (peek s).st.cur = s.cur := by rw [hst]
    have hh : (peek s).st.error_handle = s.error_handle := by rw [hst]
    simp [expect, hp, hty, hh, hcur, hv]

/-- Witness of C13 (amended): a handler that returns 0, on the input "\n" with
no pattern for the first part and on the end-to-end example for the second. -/
theorem handler_result_honoured_witness :
    ((next (strict (start [] (lit "\n")))).res = .error (.logic_error "unhandled error") ∧
      (peek (strict (start [] (lit "\n")))).res = .error (.logic_error "unhandled error")) ∧
    ((expect (strict foo42) SPACE).res = .ok false ∧
      (expect (strict foo42) SPACE).calls =
        (peek (strict foo42)).calls ++ [(.TOKEN_UNEXPECTED, (strict foo42).cur)]) :=
  ⟨(handler_result_honoured (strict (start [] (lit "\n")))).1 (by decide) (by decide) rfl,
   (handler_result_honoured (strict foo42)).2 SPACE IDENTIFIER 0 (by decide) (by decide) rfl⟩

/-- C14. On an engine whose handler is the default one (none was installed),
every reportable failure raises: an `expect(t)` whose `peek()` returns a type
code other than `t` raises `logic_error("default error handle")`, and `next()`
and `peek()` raise it when the search fails at a cursor that is not the end of
input. -/
theorem default_policy_fatal (s : State) (hdef : s.error_handle = default_error_handle) :
    (∀ t ty, (peek s).res = .ok ty → ty ≠ t →
      (expect s t).res = .error (.logic_error "default error handle")) ∧
    (search s = none → s.cur ≠ s.str.length →
      (next s).res = .error (.logic_error "default error handle") ∧
      (peek s).res = .error (.logic_error "default error handle")) := by
  constructor
  · intro t ty hp hty
    obtain ⟨tok, m, hst⟩ := peek_state s
    have hh : (peek s).st.error_handle = s.error_handle := by rw [hst]
    simp [expect, hp, hty, hh, hdef, default_error_handle]
  · intro hnone hcur
    rw [next_not_matched s hnone, peek_not_matched s hnone]
    simp [not_matched, reset_type, hcur, hdef, default_error_handle]

/-- Witness of C14: the end-to-end example for `expect(SPACE)` at the start, and
the input "\n" with no pattern for `next()` and `peek()`. -/
theorem default_policy_fatal_witness :
    foo42.error_handle = default_error_handle ∧
    (expect foo42 SPACE).res = .error (.logic_error "default error handle") ∧
    ((next (start [] (lit "\n"))).res = .error (.logic_error "default error handle") ∧
      (peek (start [] (lit "\n"))).res = .error (.logic_error "default error handle")) :=
  ⟨rfl, (default_policy_fatal foo42 rfl).1 SPACE IDENTIFIER (by decide) (by decide),
   (default_policy_fatal (start [] (lit "\n")) rfl).2 (by decide) (by decide)⟩

/-! ### The state a call leaves behind -/

theorem expect_st (s : State) (t : Int) : (expect s t).st = (peek s).st := by
  unfold expect
  dsimp only
  split
  · rfl
  · split
    · split <;> rfl
    · rfl

theorem tryget_st (s : State) (t : Int) :
    (tryget s t).st = (peek s).st ∨ (tryget s t).st = (next s).st := by
  unfold tryget
  dsimp only
  split
  · left; rfl
  · rename_i ty hp
    split
    · right
      rw [next_peek s ty hp]
      split <;> rfl
    · left; rfl

theorem add_token_type_st (s : State) (p : List Nat) (t : Int) :
    (s.status ≠ 0 → add_token_type s p t =
      ⟨.error (.logic_error "add token type after initialize"), s, []⟩) ∧
    (s.status = 0 → add_token_type s p t =
      ⟨.ok (), { s with pattern_list := s.pattern_list ++ [p], type_map := s.type_map ++ [t] },
        []⟩) := by
  unfold add_token_type
  constructor
  · intro h; simp [h]
  · intro h; simp [h]

theorem add_token_type_named_st (s : State) (p : List Nat) (t : Int) (n : List Nat) :
    (s.status ≠ 0 → add_token_type_named s p t n =
      ⟨.error (.logic_error "add token type after initialize"), s, []⟩) ∧
    (s.status = 0 → add_token_type_named s p t n =
      ⟨.ok (), { s with pattern_list := s.pattern_list ++ [p], type_map := s.type_map ++ [t],
                        token_type_string_list := emplace s.token_type_string_list t n }, []⟩) := by
  unfold add_token_type_named
  constructor
  · intro h; simp [(add_token_type_st s p t).1 h]
  · intro h; simp [(add_token_type_st s p t).2 h]

theorem add_builtin_token_type_st (s : State) (k : builtin_token_type) :
    (k = .ERROR → add_builtin_token_type s k = ⟨.ok false, s, []⟩) ∧
    (k ≠ .ERROR → s.status ≠ 0 → add_builtin_token_type s k =
      ⟨.error (.logic_error "add token type after initialize"), s, []⟩) ∧
    (k ≠ .ERROR → s.status = 0 → (add_builtin_token_type s k).res = .ok true ∧
      (add_builtin_token_type s k).st.status = 0 ∧
      (add_builtin_token_type s k).st.pattern_list.length = s.pattern_list.length + 1 ∧
      (add_builtin_token_type s k).st.type_map = s.type_map ++ [k.code]) := by
  refine ⟨?_, ?_, ?_⟩
  · intro h; subst h; rfl
  · intro hk h
    cases k <;> first
      | exact absurd rfl hk
      | simp [add_builtin_token_type, builtin_done, (add_token_type_named_st s _ _ _).1 h]
  · intro hk h
    cases k <;> first
      | exact absurd rfl hk
      | simp [add_builtin_token_type, builtin_done, (add_token_type_named_st s _ _ _).2 h, h,
          IDENTIFIER, NUMBER_LITERAL, STRING_LITERAL, CHAR_LITERAL, SPACE, NEWLINE]

theorem assign_st (s : State) (str : List Nat) :
    ((assign s str).res = .ok () ∧ (assign s str).st.status = 1) ∨
    ((assign s str).res = .error .regex_error ∧ (assign s str).st = { s with str := str }) := by
  unfold assign make_pattern
  dsimp only
  cases h : parseRegex (composite s.pattern_list) with
  | none => right; exact ⟨rfl, rfl⟩
  | some re => left; exact ⟨rfl, rfl⟩

theorem call_status (x : Call) (s : State) :
    (x.state s).status ≠ 0 ↔ (s.status ≠ 0 ∨ x.assigns s = true) := by
  cases x with
  | add_token_type p t =>
    simp only [Call.state, Call.assigns, Bool.false_eq_true, or_false]
    by_cases h : s.status = 0
    · rw [(add_token_type_st s p t).2 h]
    · rw [(add_token_type_st s p t).1 h]
  | add_token_type_named p t n =>
    simp only [Call.state, Call.assigns, Bool.false_eq_true, or_false]
    by_cases h : s.status = 0
    · rw [(add_token_type_named_st s p t n).2 h]
    · rw [(add_token_type_named_st s p t n).1 h]
  | add_builtin_token_type k =>
    simp only [Call.state, Call.assigns, Bool.false_eq_true, or_false]
    by_cases hk : k = .ERROR
    · rw [(add_builtin_token_type_st s k).1 hk]
    · by_cases h : s.status = 0
      · rw [((add_builtin_token_type_st s k).2.2 hk h).2.1, h]
      · rw [(add_builtin_token_type_st s k).2.1 hk h]
  | assign str =>
    simp only [Call.state, Call.assigns, decide_eq_true_eq]
    rcases assign_st s str with ⟨h1, h2⟩ | ⟨h1, h2⟩
    · simp [h1, h2]
    · simp [h1, h2]
  | next =>
    simp only [Call.state, Call.assigns, Bool.false_eq_true, or_false]
    obtain ⟨tok, m, line, prev, cur, h⟩ := next_state s
    rw [h]
  | peek =>
    simp only [Call.state, Call.assigns, Bool.false_eq_true, or_false]
    obtain ⟨tok, m, h⟩ := peek_state s
    rw [h]
  | expect t =>
    simp only [Call.state, Call.assigns, Bool.false_eq_true, or_false]
    obtain ⟨tok, m, h⟩ := peek_state s
    rw [expect_st, h]
  | tryget t =>
    simp only [Call.state, Call.assigns, Bool.false_eq_true, or_false]
    obtain ⟨tok, m, h⟩ := peek_state s
    obtain ⟨tok2, m2, line, prev, cur, h2⟩ := next_state s
    rcases tryget_st s t with h3 | h3
    · rw [h3, h]
    · rw [h3, h2]

/-- The initialization flag is set exactly when some `assign` returned normally. -/
theorem history_status (h : List Call) : ∀ (s : State),
    (history h s).status ≠ 0 ↔ (s.status ≠ 0 ∨ assign_returned h s = true) := by
  induction h with
  | nil => intro s; simp [history, assign_returned]
  | cons x rest ih =>
    intro s
    simp only [history, assign_returned, Bool.or_eq_true]
    rw [ih, call_status]
    tauto

/-! ### C15, C17: registration and initialization -/

/-- C15 (counterexample). After registering the pattern `(`, the call
`assign("x")` raises `regex_error` (the composite `(()|(.)` is ill formed) and
leaves the initialization flag at 0: `assign` has been called, yet both
overloads of `add_token_type` still return normally. -/
theorem registration_gate_counterexample :
    (assign (registered [(lit "(", 1)]) (lit "x")).res = .error .regex_error ∧
    history [.add_token_type (lit "(") 1, .assign (lit "x")] State.init =
      (assign (registered [(lit "(", 1)]) (lit "x")).st ∧
    (history [.add_token_type (lit "(") 1, .assign (lit "x")] State.init).status = 0 ∧
    (add_token_type (history [.add_token_type (lit "(") 1, .assign (lit "x")] State.init)
      (lit "a") 2).res = .ok () ∧
    (add_token_type_named (history [.add_token_type (lit "(") 1, .assign (lit "x")] State.init)
      (lit "a") 2 (lit "A")).res = .ok () := by
  refine ⟨by decide, rfl, by decide, by decide, by decide⟩

/-- C15 (amended). For every sequence of calls made on a fresh engine, with `s`
the state after it: `add_token_type(pattern, type[, name])` raises if and only
if some `assign` of the sequence has returned normally. When it raises it is
with `logic_error("add token type after initialize")` and the whole state, so
the pattern list, the type map and the display-name map, is unchanged. When it
does not, the pattern and the type code are appended at the end of the pattern
list and of the type map, all earlier entries keep their order, and the
three-argument overload also emplaces the name; nothing else changes. -/
theorem registration_gate (h : List Call) (p : List Nat) (t : Int) (n : List Nat) :
    (assign_returned h State.init = true →
      add_token_type (history h State.init) p t =
        ⟨.error (.logic_error "add token type after initialize"), history h State.init, []⟩ ∧
      add_token_type_named (history h State.init) p t n =
        ⟨.error (.logic_error "add token type after initialize"), history h State.init, []⟩) ∧
    (assign_returned h State.init = false →
      add_token_type (history h State.init) p t =
        ⟨.ok (), { history h State.init with
          pattern_list := (history h State.init).pattern_list ++ [p],
          type_map := (history h State.init).type_map ++ [t] }, []⟩ ∧
      add_token_type_named (history h State.init) p t n =
        ⟨.ok (), { history h State.init with
          pattern_list := (history h State.init).pattern_list ++ [p],
          type_map := (history h State.init).type_map ++ [t],
          token_type_string_list :=
            emplace (history h State.init).token_type_string_list t n }, []⟩) := by
  have hst := history_status h State.init
  have h0 : State.init.status = 0 := rfl
  constructor
  · intro ha
    have hs : (history h State.init).status ≠ 0 := hst.mpr (Or.inr ha)
    exact ⟨(add_token_type_st _ p t).1 hs, (add_token_type_named_st _ p t n).1 hs⟩
  · intro ha
    have hs : (history h State.init).status = 0 := by
      by_contra hne
      rcases hst.mp hne with h1 | h1
      · exact h1 h0
      · rw [ha] at h1; cases h1
    exact ⟨(add_token_type_st _ p t).2 hs, (add_token_type_named_st _ p t n).2 hs⟩

/-- C17 (counterexample). On the end-to-end example, which is past `assign`,
`add_builtin_token_type(IDENTIFIER)` raises instead of returning. -/
theorem capability_probe_counterexample :
    foo42.status = 1 ∧
    (add_builtin_token_type foo42 .IDENTIFIER).res =
      .error (.logic_error "add token type after initialize") := by
  decide

/-- C17 (amended). For every sequence of calls made on a fresh engine, with `s`
the state after it, and every builtin kind `k`: when no `assign` of the
sequence has returned normally, `add_builtin_token_type(k)` returns without
raising, true exactly when `k` is not ERROR (one of IDENTIFIER, NUMBER_LITERAL,
STRING_LITERAL, CHAR_LITERAL, SPACE, NEWLINE), and then the type code of `k`
is appended to the type map and one pattern to the pattern list; the result
false, for ERROR, is returned in every state and leaves the whole state
unchanged; once an `assign` has returned, the six supported kinds raise
`logic_error("add token type after initialize")` and leave the state unchanged. -/
theorem capability_probe (h : List Call) (k : builtin_token_type) :
    (k = .ERROR → add_builtin_token_type (history h State.init) k =
      ⟨.ok false, history h State.init, []⟩) ∧
    (assign_returned h State.init = false →
      (add_builtin_token_type (history h State.init) k).res = .ok (decide (k ≠ .ERROR))) ∧
    (assign_returned h State.init = false → k ≠ .ERROR →
      (add_builtin_token_type (history h State.init) k).st.type_map =
        (history h State.init).type_map ++ [k.code] ∧
      (add_builtin_token_type (history h State.init) k).st.pattern_list.length =
        (history h State.init).pattern_list.length + 1) ∧
    (assign_returned h State.init = true → k ≠ .ERROR →
      add_builtin_token_type (history h State.init) k =
        ⟨.error (.logic_error "add token type after initialize"), history h State.init, []⟩) := by
  have hst := history_status h State.init
  have h0 : State.init.status = 0 := rfl
  obtain ⟨b1, b2, b3⟩ := add_builtin_token_type_st (history h State.init) k
  have hzero : assign_returned h State.init = false → (history h State.init).status = 0 := by
    intro ha
    by_contra hne
    rcases hst.mp hne with h1 | h1
    · exact h1 h0
    · rw [ha] at h1; cases h1
  refine ⟨b1, ?_, ?_, ?_⟩
  · intro ha
    by_cases hk : k = .ERROR
    · rw [b1 hk]; simp [hk]
    · rw [(b3 hk (hzero ha)).1]; simp [hk]
  · intro ha hk
    exact ⟨(b3 hk (hzero ha)).2.2.2, (b3 hk (hzero ha)).2.2.1⟩
  · intro ha hk
    exact b2 hk (hst.mpr (Or.inr ha))

/-! ### C16: display names -/

theorem map_at_error (m : List (Int × List Nat)) (t : Int) (x : Exn)
    (h : map_at m t = .error x) : x = .out_of_range := by
  unfold map_at at h
  split at h
  · cases h
  · cases h; rfl

theorem map_at_emplace (m : List (Int × List Nat)) (k t : Int) (v : List Nat) :
    map_at (emplace m k v) t =
      match map_at m t with
      | .ok n => .ok n
      | .error _ => if k = t then .ok v else .error .out_of_range := by
  unfold map_at emplace
  cases hf : m.find? (fun e => e.1 == t) with
  | some e =>
    by_cases hany : m.any (fun e => e.1 == k) = true
    · simp only [hany, if_true, hf]
    · simp only [hany, Bool.false_eq_true, if_false, List.find?_append, hf]
      rfl
  | none =>
    have hnone : ∀ e, e ∈ m → ¬ e.1 = t := by
      intro e he heq
      have := List.find?_eq_none.mp hf e he
      simp [heq] at this
    by_cases hk : k = t
    · subst hk
      have hany : m.any (fun e => e.1 == k) = false := by
        rw [List.any_eq_false]
        intro e he
        simpa using hnone e he
      simp [hany, List.find?_append, hf]
    · by_cases hany : m.any (fun e => e.1 == k) = true
      · simp [hany, hf, hk]
      · simp [hany, List.find?_append, hf, hk]

theorem register_one_st (s : State) (e : List Nat × Int × Option (List Nat))
    (hs : s.status = 0) :
    (register_one s e).status = 0 ∧
    (register_one s e).token_type_string_list =
      match e.2.2 with
      | none => s.token_type_string_list
      | some n => emplace s.token_type_string_list e.2.1 n := by
  unfold register_one
  cases hn : e.2.2 with
  | none =>
    simp only
    rw [(add_token_type_st s e.1 e.2.1).2 hs]
    exact ⟨hs, rfl⟩
  | some n =>
    simp only
    rw [(add_token_type_named_st s e.1 e.2.1 n).2 hs]
    exact ⟨hs, rfl⟩

theorem names_fold (entries : List (List Nat × Int × Option (List Nat))) (t : Int) :
    ∀ (s : State), s.status = 0 →
    map_at (entries.foldl register_one s).token_type_string_list t =
      match map_at s.token_type_string_list t with
      | .ok n => .ok n
      | .error _ =>
        match first_name entries t with
        | some n => .ok n
        | none => .error .out_of_range := by
  induction entries with
  | nil =>
    intro s _
    simp only [List.foldl_nil, first_name, List.findSome?_nil]
    cases h : map_at s.token_type_string_list t with
    | ok n => rfl
    | error e =>
      rw [map_at_error _ _ _ h]
  | cons e rest ih =>
    intro s hs
    obtain ⟨h1, h2⟩ := register_one_st s e hs
    simp only [List.foldl_cons]
    rw [ih _ h1, h2]
    cases hn : e.2.2 with
    | none =>
      simp only
      cases hm : map_at s.token_type_string_list t with
      | ok n => rfl
      | error x =>
        simp only [first_name, List.findSome?_cons, hn]
        simp
    | some n =>
      simp only [map_at_emplace]
      cases hm : map_at s.token_type_string_list t with
      | ok n2 => rfl
      | error x =>
        simp only [first_name, List.findSome?_cons, hn]
        by_cases hk : e.2.1 = t
        · simp [hk]
        · simp [hk]

theorem call_names (x : Call) (s : State) (hx : x.registers = false) :
    (x.state s).token_type_string_list = s.token_type_string_list := by
  cases x with
  | add_token_type p t => simp [Call.registers] at hx
  | add_token_type_named p t n => simp [Call.registers] at hx
  | add_builtin_token_type k => simp [Call.registers] at hx
  | assign str =>
    simp only [Call.state]
    unfold assign make_pattern
    dsimp only
    cases h : parseRegex (composite s.pattern_list) <;> rfl
  | next =>
    obtain ⟨tok, m, line, prev, cur, h⟩ := next_state s
    simp only [Call.state]
    rw [h]
  | peek =>
    obtain ⟨tok, m, h⟩ := peek_state s
    simp only [Call.state]
    rw [h]
  | expect t =>
    obtain ⟨tok, m, h⟩ := peek_state s
    simp only [Call.state]
    rw [expect_st, h]
  | tryget t =>
    obtain ⟨tok, m, h⟩ := peek_state s
    obtain ⟨tok2, m2, line, prev, cur, h2⟩ := next_state s
    simp only [Call.state]
    rcases tryget_st s t with h3 | h3
    · rw [h3, h]
    · rw [h3, h2]

theorem history_names (h : List Call) : ∀ (s : State),
    (∀ x, x ∈ h → x.registers = false) →
    (history h s).token_type_string_list = s.token_type_string_list := by
  induction h with
  | nil => intro s _; rfl
  | cons x rest ih =>
    intro s hx
    simp only [history]
    rw [ih _ (fun y hy => hx y (by simp [hy])), call_names x s (hx x (by simp))]

theorem first_name_absent (entries : List (List Nat × Int × Option (List Nat))) (t : Int)
    (h : ∀ e, e ∈ entries → e.2.1 ≠ t) : first_name entries t = none := by
  unfold first_name
  rw [List.findSome?_eq_none_iff]
  intro e he
  simp [h e he]

/-- With unique type codes the name looked up for a type code is the name its
one registration gave, if it gave one. -/
theorem first_name_unique (entries : List (List Nat × Int × Option (List Nat)))
    (huniq : (entries.map (fun e => e.2.1)).Nodup) (p : List Nat) (t : Int)
    (name : Option (List Nat)) (hmem : (p, t, name) ∈ entries) :
    first_name entries t = name := by
  induction entries with
  | nil => simp at hmem
  | cons e rest ih =>
    simp only [List.map_cons, List.nodup_cons, List.mem_map, not_exists, not_and] at huniq
    obtain ⟨hnot, hnd⟩ := huniq
    simp only [List.mem_cons] at hmem
    rcases hmem with hhead | htail
    · subst hhead
      have hrest : first_name rest t = none :=
        first_name_absent rest t (fun e he heq => hnot e he heq)
      cases name with
      | none => simpa [first_name, List.findSome?_cons] using hrest
      | some n => simp [first_name, List.findSome?_cons]
    · have hne : e.2.1 ≠ t := fun heq => hnot (p, t, name) htail heq.symm
      have := ih hnd htail
      simpa [first_name, List.findSome?_cons, hne] using this

theorem display_name_res (entries : List (List Nat × Int × Option (List Nat)))
    (h : List Call) (hreg : ∀ x, x ∈ h → x.registers = false) (tok0 : token) (cur0 prev0 : Nat) :
    (current_token_type_string (history h
      { registered_named entries with tok := tok0, cur := cur0, prev := prev0 })).res =
      (match first_name entries (history h
          { registered_named entries with tok := tok0, cur := cur0, prev := prev0 }).tok.type with
       | some n => .ok n
       | none => .error .out_of_range) := by
  unfold current_token_type_string
  simp only
  rw [history_names h _ hreg]
  generalize (history h
    { registered_named entries with tok := tok0, cur := cur0, prev := prev0 }).tok.type = ty
  have := names_fold entries ty State.init rfl
  show map_at (registered_named entries).token_type_string_list ty = _
  rw [registered_named, this]
  rfl

/-- C16. Registrations (pattern, type code, optional display name) with unique
type codes are made on a fresh engine, whose members without initialiser
(`tok`, `cur`, `prev`) hold any values; then any calls other than registrations
follow (`assign`, `next`, `peek`, `expect`, `tryget`). In the state reached,
`current_token_type_string()` returns the string `name` when the current
token's type code was registered with the display name `name`; it fails with
`out_of_range` when that type code was registered without a display name, and
when it was not registered at all, as the ERROR sentinel, which no builtin
registration and no user type code (they are not negative) registers; the call
changes nothing. -/
theorem display_name_lookup (entries : List (List Nat × Int × Option (List Nat)))
    (h : List Call) (tok0 : token) (cur0 prev0 : Nat)
    (huniq : (entries.map (fun e => e.2.1)).Nodup)
    (hreg : ∀ x, x ∈ h → x.registers = false) :
    (∀ p name, (p, (history h { registered_named entries with
          tok := tok0, cur := cur0, prev := prev0 }).tok.type, some name) ∈ entries →
      (current_token_type_string (history h { registered_named entries with
          tok := tok0, cur := cur0, prev := prev0 })).res = .ok name) ∧
    (∀ p, (p, (history h { registered_named entries with
          tok := tok0, cur := cur0, prev := prev0 }).tok.type, none) ∈ entries →
      (current_token_type_string (history h { registered_named entries with
          tok := tok0, cur := cur0, prev := prev0 })).res = .error .out_of_range) ∧
    ((∀ e, e ∈ entries → e.2.1 ≠ (history h { registered_named entries with
          tok := tok0, cur := cur0, prev := prev0 }).tok.type) →
      (current_token_type_string (history h { registered_named entries with
          tok := tok0, cur := cur0, prev := prev0 })).res = .error .out_of_range) ∧
    ((history h { registered_named entries with
          tok := tok0, cur := cur0, prev := prev0 }).tok.type = ERROR →
      (∀ e, e ∈ entries → e.2.1 ≠ ERROR) →
      (current_token_type_string (history h { registered_named entries with
          tok := tok0, cur := cur0, prev := prev0 })).res = .error .out_of_range) ∧
    (current_token_type_string (history h { registered_named entries with
        tok := tok0, cur := cur0, prev := prev0 })).st =
      history h { registered_named entries with tok := tok0, cur := cur0, prev := prev0 } := by
  have hres := display_name_res entries h hreg tok0 cur0 prev0
  refine ⟨?_, ?_, ?_, ?_, rfl⟩
  · intro p name hmem
    rw [hres, first_name_unique entries huniq p _ (some name) hmem]
  · intro p hmem
    rw [hres, first_name_unique entries huniq p _ none hmem]
  · intro habs
    rw [hres, first_name_absent entries _ habs]
  · intro hty habs
    rw [hres, first_name_absent entries _ (fun e he => by rw [hty]; exact habs e he)]

/-- Witness of C16: type 5 registered with the name "A", type 6 without a name,
input "ab". After one `next()` the current token has type 5 and the lookup
returns "A"; after two it has type 6 and the lookup fails; after three it is
the ERROR sentinel and the lookup fails. -/
theorem display_name_lookup_witness :
    (current_token_type_string (history [.assign (lit "ab"), .next]
      { registered_named [(lit "a", 5, some (lit "A")), (lit "b", 6, none)] with
        tok := ⟨0, 0, 0, 0⟩, cur := 0, prev := 0 })).res = .ok (lit "A") ∧
    (current_token_type_string (history [.assign (lit "ab"), .next, .next]
      { registered_named [(lit "a", 5, some (lit "A")), (lit "b", 6, none)] with
        tok := ⟨0, 0, 0, 0⟩, cur := 0, prev := 0 })).res = .error .out_of_range ∧
    (current_token_type_string (history [.assign (lit "ab"), .next, .next, .next]
      { registered_named [(lit "a", 5, some (lit "A")), (lit "b", 6, none)] with
        tok := ⟨0, 0, 0, 0⟩, cur := 0, prev := 0 })).res = .error .out_of_range :=
  ⟨(display_name_lookup [(lit "a", 5, some (lit "A")), (lit "b", 6, none)]
      [.assign (lit "ab"), .next] ⟨0, 0, 0, 0⟩ 0 0 (by decide) (by decide)).1
      (lit "a") (lit "A") (by decide),
   (display_name_lookup [(lit "a", 5, some (lit "A")), (lit "b", 6, none)]
      [.assign (lit "ab"), .next, .next] ⟨0, 0, 0, 0⟩ 0 0 (by decide) (by decide)).2.1
      (lit "b") (by decide),
   (display_name_lookup [(lit "a", 5, some (lit "A")), (lit "b", 6, none)]
      [.assign (lit "ab"), .next, .next, .next] ⟨0, 0, 0, 0⟩ 0 0 (by decide) (by decide)).2.2.2.1
      (by decide) (by decide)⟩

/-! ### C19: no pattern registered -/

theorem wellFormed_nil : WellFormed [] [] := List.Forall₂.nil

theorem next_fallback_step (text : List Nat) (s : State) (hs : Session [] text s)
    (hcur : s.cur < text.length)
    (hclean : ∀ u, u ∈ text → isLineTerminator u = false) :
    next s = ⟨.ok ERROR,
      { s with match_ := (next s).st.match_, tok := ⟨s.cur, s.cur + 1, ERROR, s.line⟩,
               prev := s.cur, cur := s.cur + 1 }, []⟩ := by
  have hu : text[s.cur]? = some text[s.cur] := List.getElem?_eq_getElem hcur
  have hterm := hclean _ (List.getElem_mem hcur)
  have hf := firstAlt_fallback text [] s.cur _ hu hterm (fun j r hr => by simp at hr)
  obtain ⟨cs, h1, h2, h3, _⟩ := search_hit [] [] text s hs wellFormed_nil (by omega) _ _ hf
  have hty := type_map_entry [] [] text s hs wellFormed_nil (fun r hr => by simp at hr) 0
    (le_refl _)
  have hg0 : groupIndex [] 1 0 ≠ 0 := by simp [groupIndex]
  have hn := next_of_search s (s.cur + 1) cs _ s.cur _ h1 h2 hg0 h3 hty
  simp only [List.map_nil, List.getElem?_nil, Option.getD_none] at hn
  have hne : ¬ (ERROR = NEWLINE) := by decide
  simp only [hne, if_false, List.length_nil] at hn
  rw [hn]

theorem next_n_fallback (text : List Nat)
    (hclean : ∀ u, u ∈ text → isLineTerminator u = false) (i : Nat) :
    ∀ (s : State), Session [] text s → s.cur + i ≤ text.length →
      Session [] text (next_n i s).2 ∧ (next_n i s).2.cur = s.cur + i ∧
      (next_n i s).2.line = s.line := by
  induction i with
  | zero => intro s hs _; exact ⟨hs, rfl, rfl⟩
  | succ i ih =>
    intro s hs hle
    have hstep := next_fallback_step text s hs (by omega) hclean
    simp only [next_n]
    have hs2 : Session [] text (next s).st := (session_step [] text s hs).1
    obtain ⟨a1, a2, a3⟩ := ih (next s).st hs2 (by rw [hstep]; simp only; omega)
    refine ⟨a1, ?_, ?_⟩
    · rw [a2, hstep]; simp only; omega
    · rw [a3, hstep]

/-- C19 (counterexample). With no pattern registered and the input "\n", of
length 1, the first `next()` does not produce a token: the fallback `(.)` does
not match `\n`, the search fails, the handler is called with REGEX_NOT_MATCH
and the call raises. -/
theorem fallback_coverage_counterexample :
    (start [] (lit "\n")).str.length = 1 ∧
    (next (start [] (lit "\n"))).res = .error (.logic_error "default error handle") ∧
    (next (start [] (lit "\n"))).calls = [(.REGEX_NOT_MATCH, 0)] ∧
    (next (start [] (lit "\n"))).st.cur = 0 := by
  decide

/-- C19 (amended). With zero patterns registered, for every input of length `n`
that contains no `\n` and no `\r`: for each `i < n`, the call number `i + 1` of
`next()` after `assign` returns the ERROR sentinel (for which `succeed` is
false) without calling the handler, and produces the token of exactly one
input unit with span `i .. i + 1` on line 1, leaving the cursor at `i + 1`; the
call number `n + 1` returns ERROR with the cursor at the end of input, without
calling the handler. -/
theorem fallback_coverage (text : List Nat)
    (hclean : ∀ u, u ∈ text → isLineTerminator u = false) :
    (∀ i, i < text.length →
      (next (next_n i (start [] text)).2).res = .ok ERROR ∧
      (next (next_n i (start [] text)).2).calls = [] ∧
      (next (next_n i (start [] text)).2).st.tok = ⟨i, i + 1, ERROR, 1⟩ ∧
      (next (next_n i (start [] text)).2).st.cur = i + 1) ∧
    succeed ERROR = false ∧
    (next (next_n text.length (start [] text)).2).res = .ok ERROR ∧
    (next (next_n text.length (start [] text)).2).calls = [] ∧
    (next (next_n text.length (start [] text)).2).st.cur = text.length := by
  obtain ⟨hs, hc, _, hl, _⟩ := start_spec [] [] text wellFormed_nil
  refine ⟨?_, by decide, ?_⟩
  · intro i hi
    obtain ⟨a1, a2, a3⟩ := next_n_fallback text hclean i (start [] text) hs (by rw [hc]; omega)
    have hstep := next_fallback_step text _ a1 (by rw [a2, hc]; omega) hclean
    rw [hc] at a2
    rw [hl] at a3
    rw [hstep]
    simp [a2, a3]
  · obtain ⟨a1, a2, a3⟩ := next_n_fallback text hclean text.length (start [] text) hs
      (by rw [hc]; omega)
    rw [hc] at a2
    have hend : (next_n text.length (start [] text)).2.cur = text.length := by rw [a2]; omega
    have hcall := call_at_end [] [] text _ a1 wellFormed_nil hend (fun r hr => by simp at hr) true
    simp only [call, if_true] at hcall
    rw [hcall]
    exact ⟨rfl, rfl, hend⟩

/-- Witness of C19 (amended): the input "a". -/
theorem fallback_coverage_witness :
    (next (next_n 0 (start [] (lit "a"))).2).st.tok = ⟨0, 1, ERROR, 1⟩ ∧
    (next (next_n (lit "a").length (start [] (lit "a"))).2).res = .ok ERROR ∧
    (next (next_n (lit "a").length (start [] (lit "a"))).2).st.cur = (lit "a").length :=
  ⟨((fallback_coverage (lit "a") (by decide)).1 0 (by decide)).2.2.1,
   (fallback_coverage (lit "a") (by decide)).2.2.1,
   (fallback_coverage (lit "a") (by decide)).2.2.2.2⟩

/-! ### C20: progress -/

theorem starLoop_run (mr : Nat → Caps → Cont → MRes) (m : Nat)
    (here : Nat → Bool) (hm : 1 ≤ m)
    (hmr : ∀ pos caps (k : Cont), mr pos caps k = if here pos = true then k (pos + m) caps else none)
    (j : Nat) :
    ∀ (fuel pos : Nat) (caps : Caps) (k : Cont) (x : Nat × Caps),
      (∀ i, i < j → here (pos + i * m) = true) → here (pos + j * m) = false → j ≤ fuel →
      k (pos + j * m) caps = some x →
      starLoop mr true fuel pos caps k = some x := by
  induction j with
  | zero =>
    intro fuel pos caps k x _ hstop _ hk
    simp only [Nat.zero_mul, Nat.add_zero] at hstop hk
    cases fuel with
    | zero => simpa [starLoop] using hk
    | succ f =>
      simp only [starLoop, if_true, hmr, hstop, Bool.false_eq_true, if_false, firstOf]
      exact hk
  | succ j ih =>
    intro fuel pos caps k x hrun hstop hfuel hk
    cases fuel with
    | zero => omega
    | succ f =>
      have h0 : here pos = true := by simpa using hrun 0 (by omega)
      have hlt : pos < pos + m := by omega
      have hrest : starLoop mr true f (pos + m) caps k = some x := by
        apply ih f (pos + m) caps k x
        · intro i hi
          have := hrun (i + 1) (by omega)
          rw [show pos + m + i * m = pos + (i + 1) * m by ring]
          exact this
        · rw [show pos + m + j * m = pos + (j + 1) * m by ring]
          exact hstop
        · omega
        · rw [show pos + m + j * m = pos + (j + 1) * m by ring]
          exact hk
      simp only [starLoop, if_true, hmr, h0, hlt, hrest, firstOf]

/-- A greedy `+` over a term that matches one fixed word of `m` units: on a run
of `n ≥ 1` words followed by something else it takes the whole run. -/
theorem plus_run (inp : List Nat) (r0 : Regex) (m : Nat) (here : Nat → Bool) (hm : 1 ≤ m)
    (hmr : ∀ base pos caps (k : Cont), matchRe inp r0 base pos caps k =
      if here pos = true then k (pos + m) caps else none)
    (n pos base : Nat) (caps : Caps) (k : Cont) (x : Nat × Caps) (hn : 1 ≤ n)
    (hrun : ∀ i, i < n → here (pos + i * m) = true) (hstop : here (pos + n * m) = false)
    (hlen : pos + n * m ≤ inp.length) (hk : k (pos + n * m) caps = some x) :
    matchRe inp (.plus true r0) base pos caps k = some x := by
  obtain ⟨j, rfl⟩ : ∃ j, n = j + 1 := ⟨n - 1, by omega⟩
  have h0 : here pos = true := by simpa using hrun 0 (by omega)
  simp only [matchRe, hmr, h0, if_true]
  apply starLoop_run (fun p2 c2 k2 => if here p2 = true then k2 (p2 + m) c2 else none) m here hm
    (fun _ _ _ => rfl) j
  · intro i hi
    have := hrun (i + 1) (by omega)
    rw [show pos + m + i * m = pos + (i + 1) * m by ring]
    exact this
  · rw [show pos + m + j * m = pos + (j + 1) * m by ring]
    exact hstop
  · have h1 : j ≤ j * m := Nat.le_mul_of_pos_right j (by omega)
    have h2 : (j + 1) * m = j * m + m := by ring
    omega
  · rw [show pos + m + j * m = pos + (j + 1) * m by ring]
    exact hk

theorem plus_fail (inp : List Nat) (r0 : Regex) (m : Nat) (here : Nat → Bool)
    (hmr : ∀ base pos caps (k : Cont), matchRe inp r0 base pos caps k =
      if here pos = true then k (pos + m) caps else none)
    (pos base : Nat) (caps : Caps) (k : Cont) (hstop : here pos = false) :
    matchRe inp (.plus true r0) base pos caps k = none := by
  simp only [matchRe, hmr, hstop, Bool.false_eq_true, if_false]

theorem char_mr (inp : List Nat) (a : Nat) (base pos : Nat) (caps : Caps) (k : Cont) :
    matchRe inp (.char a) base pos caps k =
      if (decide (inp[pos]? = some a)) = true then k (pos + 1) caps else none := by
  simp only [matchRe, decide_eq_true_eq]

theorem crlf_mr (inp : List Nat) (base pos : Nat) (caps : Caps) (k : Cont) :
    matchRe inp (.seq (.char 13) (.char 10)) base pos caps k =
      if (decide (inp[pos]? = some 13) && decide (inp[pos + 1]? = some 10)) = true
      then k (pos + 2) caps else none := by
  simp only [matchRe, Bool.and_eq_true, decide_eq_true_eq]
  by_cases h1 : inp[pos]? = some 13
  · by_cases h2 : inp[pos + 1]? = some 10
    · simp [h1, h2]
    · simp [h1, h2]
  · simp [h1]

theorem crlf_run_length (n : Nat) : (crlf_run n).length = 2 * n := by
  induction n with
  | zero => rfl
  | succ n ih => simp only [crlf_run, List.length_cons, ih]; omega

theorem crlf_run_get (n : Nat) : ∀ i, i < n →
    (crlf_run n)[2 * i]? = some 13 ∧ (crlf_run n)[2 * i + 1]? = some 10 := by
  induction n with
  | zero => intro i hi; omega
  | succ n ih =>
    intro i hi
    cases i with
    | zero => simp [crlf_run]
    | succ i =>
      have := ih i (by omega)
      have e1 : 2 * (i + 1) = (2 * i + 1) + 1 := by omega
      rw [e1]
      simp only [crlf_run, List.getElem?_cons_succ]
      exact this

/-- The NEWLINE pattern tries `(?:\r\n)+`, then `\n+`, then `\r+`. -/
theorem newline_regex_alts (inp : List Nat) (pos : Nat) (caps : Caps) (k : Cont) :
    matchRe inp newline_regex 1 pos caps k =
      firstOf (matchRe inp (.plus true (.seq (.char 13) (.char 10))) 1 pos caps k)
        (fun _ => firstOf (matchRe inp (.plus true (.char 10)) 1 pos caps k)
          (fun _ => matchRe inp (.plus true (.char 13)) 1 pos caps k)) := rfl

/-- The NEWLINE pattern matches nothing at the end of the input. -/
theorem newline_regex_end (text : List Nat) :
    matchEnd text newline_regex text.length = none := by
  have hnone : text[text.length]? = none := List.getElem?_eq_none (le_refl _)
  have hA := plus_fail text (.seq (.char 13) (.char 10)) 2
    (fun p => decide (text[p]? = some 13) && decide (text[p + 1]? = some 10))
    (fun base pos caps k => crlf_mr text base pos caps k)
  have hB := plus_fail text (.char 10) 1 (fun p => decide (text[p]? = some 10))
    (fun base pos caps k => char_mr text 10 base pos caps k)
  have hC := plus_fail text (.char 13) 1 (fun p => decide (text[p]? = some 13))
    (fun base pos caps k => char_mr text 13 base pos caps k)
  unfold matchEnd matchAt
  rw [newline_regex_alts, hA _ _ _ _ (by simp [hnone]), hB _ _ _ _ (by simp [hnone]),
    hC _ _ _ _ (by simp [hnone])]
  rfl

/-- On a run of `n ≥ 1` line feeds the NEWLINE pattern matches the whole input. -/
theorem newline_regex_lf (n : Nat) (hn : 1 ≤ n) :
    matchEnd (List.replicate n 10) newline_regex 0 = some n := by
  have hA := plus_fail (List.replicate n 10) (.seq (.char 13) (.char 10)) 2
    (fun p => decide ((List.replicate n 10)[p]? = some 13) &&
      decide ((List.replicate n 10)[p + 1]? = some 10))
    (fun base pos caps k => crlf_mr _ base pos caps k)
  have hB := plus_run (List.replicate n 10) (.char 10) 1
    (fun p => decide ((List.replicate n 10)[p]? = some 10)) (le_refl _)
    (fun base pos caps k => char_mr _ 10 base pos caps k) n 0 1
    (List.replicate (ngroups newline_regex + 1) none) (accept 0) _ hn
    (by intro i hi; simp [List.getElem?_replicate, hi])
    (by simp [List.getElem?_replicate])
    (by simp) rfl
  unfold matchEnd matchAt
  rw [newline_regex_alts, hA _ _ _ _ (by simp [List.getElem?_replicate, hn]), hB]
  simp [firstOf]

/-- On a run of `n ≥ 1` carriage returns the NEWLINE pattern matches the whole input. -/
theorem newline_regex_cr (n : Nat) (hn : 1 ≤ n) :
    matchEnd (List.replicate n 13) newline_regex 0 = some n := by
  have hA := plus_fail (List.replicate n 13) (.seq (.char 13) (.char 10)) 2
    (fun p => decide ((List.replicate n 13)[p]? = some 13) &&
      decide ((List.replicate n 13)[p + 1]? = some 10))
    (fun base pos caps k => crlf_mr _ base pos caps k)
  have hB := plus_fail (List.replicate n 13) (.char 10) 1
    (fun p => decide ((List.replicate n 13)[p]? = some 10))
    (fun base pos caps k => char_mr _ 10 base pos caps k)
  have hC := plus_run (List.replicate n 13) (.char 13) 1
    (fun p => decide ((List.replicate n 13)[p]? = some 13)) (le_refl _)
    (fun base pos caps k => char_mr _ 13 base pos caps k) n 0 1
    (List.replicate (ngroups newline_regex + 1) none) (accept 0) _ hn
    (by intro i hi; simp [List.getElem?_replicate, hi])
    (by simp [List.getElem?_replicate])
    (by simp) rfl
  unfold matchEnd matchAt
  rw [newline_regex_alts, hA _ _ _ _ (by simp [List.getElem?_replicate]),
    hB _ _ _ _ (by simp [List.getElem?_replicate]), hC]
  simp [firstOf]

/-- On a run of `n ≥ 1` sequences `\r\n` the NEWLINE pattern matches the whole input. -/
theorem newline_regex_crlf (n : Nat) (hn : 1 ≤ n) :
    matchEnd (crlf_run n) newline_regex 0 = some (2 * n) := by
  have hA := plus_run (crlf_run n) (.seq (.char 13) (.char 10)) 2
    (fun p => decide ((crlf_run n)[p]? = some 13) && decide ((crlf_run n)[p + 1]? = some 10))
    (by omega)
    (fun base pos caps k => crlf_mr _ base pos caps k) n 0 1
    (List.replicate (ngroups newline_regex + 1) none) (accept 0) _ hn
    (by
      intro i hi
      have := crlf_run_get n i hi
      have e : 0 + i * 2 = 2 * i := by omega
      simp only [e, this, decide_True, Bool.and_self])
    (by
      have e : 0 + n * 2 = (crlf_run n).length := by rw [crlf_run_length]; omega
      have hnone : (crlf_run n)[(crlf_run n).length]? = none := List.getElem?_eq_none (le_refl _)
      simp [e, hnone])
    (by rw [crlf_run_length]; omega) rfl
  unfold matchEnd matchAt
  rw [newline_regex_alts, hA]
  simp [firstOf]
  omega

theorem newline_start_spec (text : List Nat) :
    Session [(lit "(?:\\r\\n)+|\\n+|\\r+", NEWLINE)] text (newline_start text) ∧
    (newline_start text).cur = 0 ∧ (newline_start text).line = 1 := by
  have hp : parseRegex (composite (add_builtin_token_type State.init .NEWLINE).st.pattern_list) =
      parseRegex (composite ([(lit "(?:\\r\\n)+|\\n+|\\r+", NEWLINE)].map Prod.fst)) := by decide
  have hsome : (parseRegex (composite ([(lit "(?:\\r\\n)+|\\n+|\\r+", NEWLINE)].map
      Prod.fst))).isSome = true := by decide
  cases hq : parseRegex (composite ([(lit "(?:\\r\\n)+|\\n+|\\r+", NEWLINE)].map Prod.fst)) with
  | none => rw [hq] at hsome; cases hsome
  | some re =>
    rw [hq] at hp
    have ha : newline_start text =
        { (add_builtin_token_type State.init .NEWLINE).st with
            str := text, pattern := some re, prev := 0, cur := 0,
            type_map := (add_builtin_token_type State.init .NEWLINE).st.type_map ++ [ERROR],
            status := 1 } := by
      unfold newline_start assign make_pattern
      simp only [hp]
    rw [ha]
    refine ⟨⟨rfl, hq.symm, ?_⟩, rfl, ?_⟩
    · show (add_builtin_token_type State.init .NEWLINE).st.type_map ++ [ERROR] = _
      decide
    · show (add_builtin_token_type State.init .NEWLINE).st.line = 1
      decide

/-- The two calls of `next()` on an input that the NEWLINE pattern matches as a
whole from offset 0. -/
theorem newline_whole (text : List Nat)
    (h : matchEnd text newline_regex 0 = some text.length) :
    (next (newline_start text)).res = .ok NEWLINE ∧
    (next (newline_start text)).st.tok = ⟨0, text.length, NEWLINE, 2⟩ ∧
    (next (newline_start text)).st.line = 2 ∧
    (next (newline_start text)).st.cur = text.length ∧
    (next (next (newline_start text)).st).res = .ok ERROR ∧
    (next (next (newline_start text)).st).st.cur = text.length ∧
    (next (next (newline_start text)).st).st.line = 2 := by
  obtain ⟨hs, hcur, hline⟩ := newline_start_spec text
  have hwf : WellFormed [(lit "(?:\\r\\n)+|\\n+|\\r+", NEWLINE)] [newline_regex] := by
    unfold WellFormed; decide
  have hfree : ∀ r, r ∈ [newline_regex] → ngroups r = 0 := by decide
  have hf : firstAlt text [newline_regex] (newline_start text).cur = some (0, text.length) := by
    rw [hcur]
    simp only [firstAlt, h]
  obtain ⟨cs, h1, h2, h3, _, _, _⟩ := search_hit _ _ text _ hs hwf (by omega) 0 text.length hf
  have hty := type_map_entry _ _ text _ hs hwf hfree 0 (by simp)
  have hn := next_of_search _ _ cs _ _ _ h1 h2 (by decide) h3 hty
  have hnl : ((([(lit "(?:\\r\\n)+|\\n+|\\r+", NEWLINE)] : List (List Nat × Int)).map
      Prod.snd)[0]?).getD ERROR = NEWLINE := by decide
  rw [hnl] at hn
  simp only [if_true, hline, hcur] at hn
  have hs2 : Session [(lit "(?:\\r\\n)+|\\n+|\\r+", NEWLINE)] text (next (newline_start text)).st := by
    rw [hn]
    exact ⟨hs.1, hs.2.1, hs.2.2⟩
  have hend : (next (newline_start text)).st.cur = text.length := by rw [hn]
  have hc := call_at_end _ _ text _ hs2 hwf hend
    (by intro r hr; simp only [List.mem_singleton] at hr; rw [hr]; exact newline_regex_end text)
    true
  simp only [call, if_true] at hc
  rw [hc]
  have e1 : (next (newline_start text)).st.tok = ⟨0, text.length, NEWLINE, 2⟩ :=
    congrArg (fun o => o.st.tok) hn
  have e2 : (next (newline_start text)).st.line = 2 := congrArg (fun o => o.st.line) hn
  have e3 : (next (newline_start text)).res = .ok NEWLINE := congrArg (fun o => o.res) hn
  exact ⟨e3, e1, e2, hend, rfl, hend, e2⟩

/-- C18, counterexample: with only the NEWLINE builtin registered, the input
`"\n\r"` is a run of two newline sequences, yet the first `next()` returns a
NEWLINE token spanning only the first unit, the following `next()` returns
NEWLINE again instead of ERROR, and the line counter ends at 3. -/
theorem newline_collapsing_counterexample :
    (next (newline_start (lit "\n\r"))).res = .ok NEWLINE ∧
    (next (newline_start (lit "\n\r"))).st.tok = ⟨0, 1, NEWLINE, 2⟩ ∧
    span (lit "\n\r") (next (newline_start (lit "\n\r"))).st.tok ≠ lit "\n\r" ∧
    (next (newline_start (lit "\n\r"))).st.cur = 1 ∧
    (next (next (newline_start (lit "\n\r"))).st).res = .ok NEWLINE ∧
    (next (next (newline_start (lit "\n\r"))).st).st.tok = ⟨1, 2, NEWLINE, 3⟩ ∧
    (next (next (newline_start (lit "\n\r"))).st).st.line = 3 := by
  decide

/-- C18, amended: with only the NEWLINE builtin registered, on an input made of
`n ≥ 1` copies of one and the same newline sequence (all `\n`, all `\r`, or all
`\r\n`), the first `next()` returns NEWLINE with a token spanning the whole
input, the line counter goes from 1 to 2, and the following `next()` returns
ERROR with the cursor at the end of the input and the line counter still 2. -/
theorem newline_collapsing (n : Nat) (text : List Nat) (hn : 1 ≤ n)
    (hrun : text = List.replicate n 10 ∨ text = List.replicate n 13 ∨ text = crlf_run n) :
    (newline_start text).line = 1 ∧
    (next (newline_start text)).res = .ok NEWLINE ∧
    (next (newline_start text)).st.tok.first = 0 ∧
    (next (newline_start text)).st.tok.last = text.length ∧
    span text (next (newline_start text)).st.tok = text ∧
    (next (newline_start text)).st.line = 2 ∧
    (next (newline_start text)).st.cur = text.length ∧
    (next (next (newline_start text)).st).res = .ok ERROR ∧
    (next (next (newline_start text)).st).st.cur = text.length ∧
    (next (next (newline_start text)).st).st.line = 2 := by
  have h : matchEnd text newline_regex 0 = some text.length := by
    rcases hrun with rfl | rfl | rfl
    · rw [newline_regex_lf n hn, List.length_replicate]
    · rw [newline_regex_cr n hn, List.length_replicate]
    · rw [newline_regex_crlf n hn, crlf_run_length]
  obtain ⟨a1, a2, a3, a4, a5, a6, a7⟩ := newline_whole text h
  refine ⟨(newline_start_spec text).2.2, a1, by rw [a2], by rw [a2], ?_, a3, a4, a5, a6, a7⟩
  rw [a2]
  simp [span]

theorem newline_collapsing_witness :
    (1 ≤ 3 ∧ lit "\n\n\n" = List.replicate 3 10) ∧
    (next (newline_start (lit "\n\n\n"))).res = .ok NEWLINE ∧
    span (lit "\n\n\n") (next (newline_start (lit "\n\n\n"))).st.tok = lit "\n\n\n" ∧
    (next (newline_start (lit "\n\n\n"))).st.line = 2 ∧
    (next (next (newline_start (lit "\n\n\n"))).st).res = .ok ERROR :=
  ⟨⟨by decide, by decide⟩,
   (newline_collapsing 3 (lit "\n\n\n") (by decide) (Or.inl (by decide))).2.1,
   (newline_collapsing 3 (lit "\n\n\n") (by decide) (Or.inl (by decide))).2.2.2.2.1,
   (newline_collapsing 3 (lit "\n\n\n") (by decide) (Or.inl (by decide))).2.2.2.2.2.1,
   (newline_collapsing 3 (lit "\n\n\n") (by decide) (Or.inl (by decide))).2.2.2.2.2.2.2.1⟩

end Tokenizer
